import Mathlib

/-!
# Verification of the logistics MST pipeline

Shallow embedding of `services/logistics.py`: coordinate extraction,
complete geodesic graph construction, minimum-spanning-tree computation
(`networkx.minimum_spanning_tree`, Kruskal with a union-find, modelled here
by an explicit component-labelling), and the map-rendering stage
`visualize_mst_map`, whose external OSM road-network calls are modelled by
an oracle (`Router` / `RoadGraph`).  Machine floats are modelled by real
numbers; `raise` is modelled by `Except`.
-/

namespace Logistics

/-! ## Math helpers (`math.radians`, `math.atan2`, `haversine`) -/

/-- `math.atan2 y x` (two-argument arctangent), for real arguments. -/
noncomputable def atan2 (y x : ℝ) : ℝ :=
  if 0 < x then Real.arctan (y / x)
  else if x < 0 then
    (if 0 ≤ y then Real.arctan (y / x) + Real.pi else Real.arctan (y / x) - Real.pi)
  else
    (if 0 < y then Real.pi / 2 else if y < 0 then -(Real.pi / 2) else 0)

/-- `math.radians`: degrees to radians. -/
noncomputable def radians (d : ℝ) : ℝ := d * Real.pi / 180

/-- `haversine(lat1, lon1, lat2, lon2)` from `services/logistics.py`
(lines 17-23): geodesic distance in meters, Earth radius 6371000 m. -/
noncomputable def haversine (lat1 lon1 lat2 lon2 : ℝ) : ℝ :=
  let R : ℝ := 6371000
  let phi1 := radians lat1
  let phi2 := radians lat2
  let dphi := radians (lat2 - lat1)
  let dlambda := radians (lon2 - lon1)
  let a := Real.sin (dphi / 2) ^ 2 +
    Real.cos phi1 * Real.cos phi2 * Real.sin (dlambda / 2) ^ 2
  2 * R * atan2 (Real.sqrt a) (Real.sqrt (1 - a))

/-! ## `get_default_tags` (lines 26-38) -/

/-- A value in an OSM tag filter: either a list of tag values or a flag
(`harbour: True`). -/
inductive TagValue where
  | strs (vals : List String)
  | flag (b : Bool)
deriving DecidableEq, Repr

/-- Python's `str.lower()`, modelled as character-wise lowercasing of
the string data (the mode strings are ASCII). -/
def strLower (s : String) : String := ⟨s.data.map Char.toLower⟩

/-- `get_default_tags(mode)`: lowercases the mode and returns the tag
mapping for the four known modes; `none` models the `ValueError` raised
for any other mode. -/
def get_default_tags (mode : String) : Option (List (String × TagValue)) :=
  let m := strLower mode
  if m = "auto" then some [("building", .strs ["warehouse", "depot", "industrial"])]
  else if m = "aero" then some [("aeroway", .strs ["terminal", "hangar", "cargo"])]
  else if m = "sea" then some [("harbour", .flag true), ("man_made", .strs ["pier", "dock"])]
  else if m = "rail" then some [("railway", .strs ["station", "yard", "cargo_terminal"])]
  else none

/-! ## Geometry and `extract_coordinates` (lines 66-80) -/

/-- A geometric feature.  `point x y` carries longitude `x` and latitude
`y` (shapely's `geom.x` / `geom.y`).  For `polygon` and `multipolygon`
the code reads `geom.centroid.x` / `geom.centroid.y`, an external shapely
computation; the constructor carries that centroid. -/
inductive Geometry where
  | point (x y : ℝ)
  | polygon (cx cy : ℝ)
  | multipolygon (cx cy : ℝ)

/-- One row of the input GeoDataFrame: a geometry plus the scalar
attribute columns (`row.to_dict()` minus the geometry object).  A `none`
value models a NaN/None cell. -/
structure FacilityRecord where
  geometry : Geometry
  attrs : List (String × Option String)

/-- One row of the coords DataFrame produced by `extract_coordinates`. -/
structure LocatedPoint where
  lat : ℝ
  lon : ℝ
  tags : List (String × Option String)

instance : Inhabited LocatedPoint := ⟨⟨0, 0, []⟩⟩

/-- The latitude resolved for a record: `geom.centroid.y` for (multi)polygons,
`geom.y` for points. -/
def resolveLat : Geometry → ℝ
  | .point _ y => y
  | .polygon _ cy => cy
  | .multipolygon _ cy => cy

/-- The longitude resolved for a record: `geom.centroid.x` for
(multi)polygons, `geom.x` for points. -/
def resolveLon : Geometry → ℝ
  | .point x _ => x
  | .polygon cx _ => cx
  | .multipolygon cx _ => cx

/-- `extract_coordinates(gdf)`: one output row per input row, in order,
with the resolved centroid-or-point coordinates and the attribute bag.
No validation, dropping or reporting of any kind happens here. -/
def extract_coordinates (gdf : List FacilityRecord) : List LocatedPoint :=
  gdf.map (fun row => { lat := resolveLat row.geometry, lon := resolveLon row.geometry,
                        tags := row.attrs })

/-! ## `build_geodesic_graph` (lines 83-95) -/

/-- An edge `(i, j, {"weight": w})` of a `networkx` graph over the
integer index of the coords DataFrame. -/
abbrev Edge := ℕ × ℕ × ℝ

/-- A weighted undirected `networkx` graph: node list plus edge list. -/
structure WGraph where
  nodes : List ℕ
  edges : List Edge

/-- `build_geodesic_graph(coords_df)`: nodes are the DataFrame index
`0..n-1`; one edge `(i, j)` for every pair `i < j`, weighted by the
haversine distance between the rows. -/
noncomputable def build_geodesic_graph (coords : List LocatedPoint) : WGraph :=
  let n := coords.length
  { nodes := List.range n
    edges := (List.range n).flatMap (fun i =>
      ((List.range n).filter (fun j => decide (i < j))).map (fun j =>
        (i, j, haversine (coords.getD i default).lat (coords.getD i default).lon
                         (coords.getD j default).lat (coords.getD j default).lon))) }

/-! ## `build_mst_graph` (lines 98-100)

`nx.minimum_spanning_tree` runs Kruskal's algorithm: edges are sorted by
weight and greedily added when their endpoints lie in different
union-find components.  We model the union-find by a component-labelling
list `lab` (node `u` has label `lab[u]`); a union relabels one class. -/

/-- Label of node `u` in labelling `lab` (out-of-range defaults to `u`;
in the pipeline `lab` always has one entry per node). -/
def labAt (lab : List ℕ) (u : ℕ) : ℕ := lab.getD u u

/-- Merge the component of `e`'s second endpoint into the component of
its first endpoint. -/
def unionLabels (lab : List ℕ) (e : Edge) : List ℕ :=
  let lu := labAt lab e.1
  let lv := labAt lab e.2.1
  lab.map (fun c => if c = lv then lu else c)

/-- One Kruskal step: keep the edge iff its endpoints currently have
distinct labels. -/
def kruskalStep (acc : List Edge × List ℕ) (e : Edge) : List Edge × List ℕ :=
  if labAt acc.2 e.1 = labAt acc.2 e.2.1 then acc
  else (acc.1 ++ [e], unionLabels acc.2 e)

/-- Sort edges by nondecreasing weight (Python's stable `sorted` by the
`weight` attribute). -/
noncomputable def sortEdges (es : List Edge) : List Edge :=
  es.mergeSort (fun a b => decide (a.2.2 ≤ b.2.2))

/-- `nx.minimum_spanning_tree(G)`: same node set, Kruskal-selected edges. -/
noncomputable def minimum_spanning_tree (G : WGraph) : WGraph :=
  { nodes := G.nodes
    edges := ((sortEdges G.edges).foldl kruskalStep ([], List.range G.nodes.length)).1 }

/-- `build_mst_graph(G)` (line 100). -/
noncomputable def build_mst_graph (G : WGraph) : WGraph := minimum_spanning_tree G

/-! ## `visualize_mst_map` (lines 103-232)

The external OSM road network is an oracle.  `ox.graph_from_bbox` may
raise (`fetchGraph = .error`); on success it yields a `RoadGraph`
exposing the three queries the code performs.  Each query result of the
form `.error ()` models a raised exception.  The pure folium rendering
is modelled by the list of per-edge distance labels drawn on the map
(`EdgeDraw`); the circle markers carry no claim-relevant data and are
omitted. -/

/-- Bounding box `(west, south, east, north)`. -/
abbrev Bbox := ℝ × ℝ × ℝ × ℝ

/-- The routable road network downloaded by `ox.graph_from_bbox`. -/
structure RoadGraph where
  /-- `ox.distance.nearest_nodes(G, X=lons, Y=lats)`: one OSM node id per
  input coordinate, or a raised exception. -/
  nearestNodes : List (ℝ × ℝ) → Except Unit (List ℕ)
  /-- `ox.routing.shortest_path(G, u, v, weight="length")`:
  `.ok none` is "no path" (`route = None`), `.ok (some ns)` a node path,
  `.error ()` a raised exception. -/
  shortestPath : ℕ → ℕ → Except Unit (Option (List ℕ))
  /-- `ox.routing.route_to_gdf(G, route)["length"].sum()`: total length in
  meters of a route's segments, or a raised exception. -/
  routeLength : List ℕ → Except Unit ℝ

/-- The external world of `visualize_mst_map`. -/
structure Router where
  /-- `ox.graph_from_bbox(bbox, network_type="drive")` — note the code
  always downloads the `drive` network, whatever `mode` is. -/
  fetchGraph : Bbox → Except Unit RoadGraph

/-- The distance label drawn on the map for one MST edge: `refined km`
for a routed distance (blue solid line), `fallback km` for the geodesic
distance (gray dashed line). -/
inductive EdgeDraw where
  | refined (km : ℝ)
  | fallback (km : ℝ)

/-- Lines 147-150: the `shortest_path` call is wrapped in
`try/except Exception: route = None`. -/
def routeOrNone (g : RoadGraph) (u v : ℕ) : Option (List ℕ) :=
  match g.shortestPath u v with
  | .error _ => none
  | .ok r => r

/-- The geodesic fallback label (line 206): `haversine(...) / 1000` km. -/
noncomputable def fallbackKm (coords : List LocatedPoint) (e : Edge) : ℝ :=
  haversine (coords.getD e.1 default).lat (coords.getD e.1 default).lon
            (coords.getD e.2.1 default).lat (coords.getD e.2.1 default).lon / 1000

/-- Lines 143-228, one iteration of the edge loop: route between the
snapped endpoints; if a route with more than one node exists, sum its
segment lengths (`route_to_gdf`, unguarded — an exception here
propagates) and draw the refined distance; otherwise draw the geodesic
fallback. -/
noncomputable def drawEdge (g : RoadGraph) (coords : List LocatedPoint)
    (snapped : List ℕ) (e : Edge) : Except Unit EdgeDraw :=
  let node_u := snapped.getD e.1 0
  let node_v := snapped.getD e.2.1 0
  match routeOrNone g node_u node_v with
  | some route =>
    if 1 < route.length then
      match g.routeLength route with
      | .error err => .error err
      | .ok dist_m => .ok (.refined (dist_m / 1000))
    else .ok (.fallback (fallbackKm coords e))
  | none => .ok (.fallback (fallbackKm coords e))

/-- Run an `Except`-valued function along a list, stopping at the first
raised exception (the Python `for` loop over `mst.edges`). -/
def exceptMap {α β : Type} (f : α → Except Unit β) : List α → Except Unit (List β)
  | [] => .ok []
  | a :: as =>
    match f a with
    | .error e => .error e
    | .ok b =>
      match exceptMap f as with
      | .error e => .error e
      | .ok bs => .ok (b :: bs)

/-- `visualize_mst_map(coords_df, mst, bbox, mode, output_file)`:
downloads the road network (unguarded), snaps all points at once
(unguarded), draws every MST edge, saves the map and returns the output
path.  The returned pair carries the drawn distance labels alongside the
path. -/
noncomputable def visualize_mst_map (router : Router) (coords : List LocatedPoint)
    (mst : WGraph) (bbox : Bbox) (mode : String) (output_file : String) :
    Except Unit (List EdgeDraw × String) :=
  match router.fetchGraph bbox with
  | .error err => .error err
  | .ok g =>
    match g.nearestNodes (coords.map (fun c => (c.lon, c.lat))) with
    | .error err => .error err
    | .ok snapped =>
      match exceptMap (drawEdge g coords snapped) mst.edges with
      | .error err => .error err
      | .ok draws => .ok (draws, output_file)

/-! ## `generate_logistics_mst` (lines 241-303) -/

/-- One element of the result's `edges` list (lines 286-290). -/
structure ResultEdge where
  from_index : ℕ
  to_index : ℕ
  distance : ℝ

/-- One element of the result's `points` list (lines 275-279). -/
structure ResultPoint where
  lat : ℝ
  lon : ℝ
  tags : List (String × Option String)

/-- The full result dict (lines 292-303). -/
structure NetworkResult where
  nodes_count : ℕ
  edges_count : ℕ
  total_distance : ℝ
  points : List ResultPoint
  edges : List ResultEdge
  map_path : String
  mode : String
  bbox : Bbox
  status : String

/-- The two possible returns of `generate_logistics_mst`: the early
`{"status": "no_data", "message": ...}` dict (line 254), which carries
no counts, or the full result dict. -/
inductive MstResponse where
  | noData (status message : String)
  | result (r : NetworkResult)

/-- Lines 264-273: drop the `geometry` key; a NaN/None value becomes
`None`, anything else is stringified (attribute values are already
modelled as strings). -/
def cleanTags (tags : List (String × Option String)) : List (String × Option String) :=
  (tags.filter (fun kv => kv.1 != "geometry")).map (fun kv =>
    match kv.2 with
    | none => (kv.1, none)
    | some v => (kv.1, some v))

/-- `generate_logistics_mst(bbox, mode, ...)`.  `gdf` is the feature set
returned by the external OSM download in `load_logistics_features`
(which first calls `get_default_tags`, so an unknown mode raises
`ValueError`).  The cache-directory bookkeeping is plumbing and carries
no claim-relevant data.  An exception anywhere (invalid mode, or a raise
escaping `visualize_mst_map`) propagates: there is no `try` in this
function. -/
noncomputable def generate_logistics_mst (router : Router) (gdf : List FacilityRecord)
    (bbox : Bbox) (mode : String) (output_file : String) : Except Unit MstResponse :=
  match get_default_tags mode with
  | none => .error ()
  | some _ =>
    if gdf.isEmpty then
      .ok (.noData "no_data" "Нет логистических объектов в области.")
    else
      let coords_df := extract_coordinates gdf
      let G := build_geodesic_graph coords_df
      let mst := build_mst_graph G
      match visualize_mst_map router coords_df mst bbox mode output_file with
      | .error err => .error err
      | .ok res =>
        let points : List ResultPoint := coords_df.map (fun row =>
          { lat := row.lat, lon := row.lon, tags := cleanTags row.tags })
        let edges : List ResultEdge := mst.edges.map (fun e =>
          { from_index := e.1, to_index := e.2.1, distance := e.2.2 })
        .ok (.result
          { nodes_count := points.length
            edges_count := edges.length
            total_distance := (mst.edges.map (fun e => e.2.2)).sum
            points := points
            edges := edges
            map_path := res.2
            mode := mode
            bbox := bbox
            status := "ok" })

/-! ## Connectivity of an edge list

`linked F u v` is reachability between nodes `u` and `v` through the
undirected edges of `F` — the relation a union-find over `F` decides. -/

/-- One undirected edge of `F` joins `x` and `y`. -/
def edgeAdj (F : List Edge) (x y : ℕ) : Prop :=
  ∃ w, (x, y, w) ∈ F ∨ (y, x, w) ∈ F

/-- Reachability through the edges of `F`. -/
def linked (F : List Edge) : ℕ → ℕ → Prop := Relation.ReflTransGen (edgeAdj F)

theorem edgeAdj_symm {F : List Edge} {x y : ℕ} (h : edgeAdj F x y) : edgeAdj F y x := by
  obtain ⟨w, h | h⟩ := h
  · exact ⟨w, Or.inr h⟩
  · exact ⟨w, Or.inl h⟩

theorem linked_refl (F : List Edge) (x : ℕ) : linked F x x := Relation.ReflTransGen.refl

theorem linked_of_adj {F : List Edge} {x y : ℕ} (h : edgeAdj F x y) : linked F x y :=
  Relation.ReflTransGen.single h

theorem linked_of_mem {F : List Edge} {e : Edge} (h : e ∈ F) : linked F e.1 e.2.1 :=
  linked_of_adj ⟨e.2.2, Or.inl h⟩

theorem linked_symm {F : List Edge} {x y : ℕ} (h : linked F x y) : linked F y x :=
  Relation.ReflTransGen.symmetric (fun _ _ => edgeAdj_symm) h

theorem linked_trans {F : List Edge} {x y z : ℕ} (h₁ : linked F x y) (h₂ : linked F y z) :
    linked F x z := Relation.ReflTransGen.trans h₁ h₂

theorem linked_mono {F F' : List Edge} (hsub : ∀ e ∈ F, e ∈ F') {x y : ℕ}
    (h : linked F x y) : linked F' x y := by
  refine Relation.ReflTransGen.mono ?_ h
  rintro a b ⟨w, hm | hm⟩
  · exact ⟨w, Or.inl (hsub _ hm)⟩
  · exact ⟨w, Or.inr (hsub _ hm)⟩

theorem linked_nil {x y : ℕ} (h : linked [] x y) : x = y := by
  induction h with
  | refl => rfl
  | tail _ hadj ih => obtain ⟨w, hm | hm⟩ := hadj <;> cases hm

/-- Adding the single edge `e` to `F`: any two nodes joined through
`F ++ [e]` are joined through `F` alone, or through `F` to the two
endpoints of `e`. -/
theorem linked_append_single {F : List Edge} {e : Edge} {x y : ℕ}
    (h : linked (F ++ [e]) x y) :
    linked F x y ∨ (linked F x e.1 ∧ linked F e.2.1 y) ∨
      (linked F x e.2.1 ∧ linked F e.1 y) := by
  induction h with
  | refl => exact Or.inl (linked_refl _ _)
  | tail _ hadj ih =>
    rename_i b c _
    obtain ⟨w, hm | hm⟩ := hadj
    · rw [List.mem_append] at hm
      rcases hm with hm | hm
      · -- a genuine step of F from b to c
        have hbc : linked F b c := linked_of_adj ⟨w, Or.inl hm⟩
        rcases ih with ih | ⟨h₁, h₂⟩ | ⟨h₁, h₂⟩
        · exact Or.inl (linked_trans ih hbc)
        · exact Or.inr (Or.inl ⟨h₁, linked_trans h₂ hbc⟩)
        · exact Or.inr (Or.inr ⟨h₁, linked_trans h₂ hbc⟩)
      · -- the step is the new edge e, crossed forwards
        simp only [List.mem_singleton] at hm
        subst hm
        rcases ih with ih | ⟨h₁, _⟩ | ⟨h₁, _⟩
        · exact Or.inr (Or.inl ⟨ih, linked_refl _ _⟩)
        · exact Or.inr (Or.inl ⟨h₁, linked_refl _ _⟩)
        · exact Or.inl h₁
    · rw [List.mem_append] at hm
      rcases hm with hm | hm
      · have hbc : linked F b c := linked_of_adj ⟨w, Or.inr hm⟩
        rcases ih with ih | ⟨h₁, h₂⟩ | ⟨h₁, h₂⟩
        · exact Or.inl (linked_trans ih hbc)
        · exact Or.inr (Or.inl ⟨h₁, linked_trans h₂ hbc⟩)
        · exact Or.inr (Or.inr ⟨h₁, linked_trans h₂ hbc⟩)
      · -- the step is the new edge e, crossed backwards
        simp only [List.mem_singleton] at hm
        subst hm
        rcases ih with ih | ⟨h₁, _⟩ | ⟨h₁, _⟩
        · exact Or.inr (Or.inr ⟨ih, linked_refl _ _⟩)
        · exact Or.inl h₁
        · exact Or.inr (Or.inr ⟨h₁, linked_refl _ _⟩)

/-- Converse direction of `linked_append_single`. -/
theorem linked_append_single_of {F : List Edge} {e : Edge} {x y : ℕ}
    (h : linked F x y ∨ (linked F x e.1 ∧ linked F e.2.1 y) ∨
      (linked F x e.2.1 ∧ linked F e.1 y)) :
    linked (F ++ [e]) x y := by
  have hmono : ∀ {a b : ℕ}, linked F a b → linked (F ++ [e]) a b :=
    fun h => linked_mono (fun f hf => List.mem_append_left _ hf) h
  have he : linked (F ++ [e]) e.1 e.2.1 :=
    linked_of_adj ⟨e.2.2, Or.inl (List.mem_append_right _ (List.mem_singleton_self _))⟩
  rcases h with h | ⟨h₁, h₂⟩ | ⟨h₁, h₂⟩
  · exact hmono h
  · exact linked_trans (linked_trans (hmono h₁) he) (hmono h₂)
  · exact linked_trans (linked_trans (hmono h₁) (linked_symm he)) (hmono h₂)

/-! ## The component labelling computes `linked` -/

/-- The labelling obtained by uniting along every edge of `F`, starting
from the identity labelling of `0..n-1`. -/
def labOf (n : ℕ) (F : List Edge) : List ℕ := F.foldl unionLabels (List.range n)

theorem labOf_nil (n : ℕ) : labOf n [] = List.range n := rfl

theorem labOf_append_single (n : ℕ) (F : List Edge) (e : Edge) :
    labOf n (F ++ [e]) = unionLabels (labOf n F) e := by
  simp [labOf, List.foldl_append]

theorem length_unionLabels (lab : List ℕ) (e : Edge) :
    (unionLabels lab e).length = lab.length := by
  simp [unionLabels]

theorem length_labOf (n : ℕ) (F : List Edge) : (labOf n F).length = n := by
  induction F using List.reverseRecOn with
  | nil => simp [labOf_nil]
  | append_singleton F e ih => rw [labOf_append_single, length_unionLabels, ih]

theorem labAt_map (lab : List ℕ) (f : ℕ → ℕ) {u : ℕ} (h : u < lab.length) :
    labAt (lab.map f) u = f (labAt lab u) := by
  unfold labAt
  rw [List.getD_eq_getElem?_getD, List.getD_eq_getElem?_getD,
    List.getElem?_map, List.getElem?_eq_getElem h]
  rfl

theorem labAt_union (lab : List ℕ) (e : Edge) {u : ℕ} (h : u < lab.length) :
    labAt (unionLabels lab e) u =
      if labAt lab u = labAt lab e.2.1 then labAt lab e.1 else labAt lab u := by
  unfold unionLabels
  rw [labAt_map _ _ h]

theorem labAt_range (n u : ℕ) : labAt (List.range n) u = u := by
  unfold labAt
  rcases Nat.lt_or_ge u n with h | h
  · rw [List.getD_eq_getElem?_getD, List.getElem?_range h]; rfl
  · rw [List.getD_eq_getElem?_getD, List.getElem?_eq_none (by simpa using h)]; rfl

/-- Fundamental property of the labelling: two nodes carry the same
label exactly when they are connected through the folded edges. -/
theorem labAt_eq_iff_linked (n : ℕ) (F : List Edge) :
    (∀ e ∈ F, e.1 < n ∧ e.2.1 < n) →
    ∀ u v : ℕ, u < n → v < n →
      (labAt (labOf n F) u = labAt (labOf n F) v ↔ linked F u v) := by
  induction F using List.reverseRecOn with
  | nil =>
    intro _ u v _ _
    rw [labOf_nil, labAt_range, labAt_range]
    constructor
    · rintro rfl; exact linked_refl _ _
    · exact linked_nil
  | append_singleton F e ih =>
    intro hF u v hu hv
    have hF' : ∀ f ∈ F, f.1 < n ∧ f.2.1 < n := fun f hf => hF f (List.mem_append_left _ hf)
    have he : e.1 < n ∧ e.2.1 < n := hF e (List.mem_append_right _ (List.mem_singleton_self _))
    have hlen : ∀ w, w < n → w < (labOf n F).length := fun w hw => by
      rw [length_labOf]; exact hw
    rw [labOf_append_single, labAt_union _ _ (hlen u hu), labAt_union _ _ (hlen v hv)]
    constructor
    · intro hfe
      by_cases h₁ : labAt (labOf n F) u = labAt (labOf n F) e.2.1 <;>
        by_cases h₂ : labAt (labOf n F) v = labAt (labOf n F) e.2.1
      · -- both nodes lie in the dissolved class
        exact linked_mono (fun f hf => List.mem_append_left _ hf)
          ((ih hF' u v hu hv).mp (h₁.trans h₂.symm))
      · rw [if_pos h₁, if_neg h₂] at hfe
        have hv1 : linked F v e.1 := (ih hF' v e.1 hv he.1).mp hfe.symm
        have hu2 : linked F u e.2.1 := (ih hF' u e.2.1 hu he.2).mp h₁
        exact linked_append_single_of (Or.inr (Or.inr ⟨hu2, linked_symm hv1⟩))
      · rw [if_neg h₁, if_pos h₂] at hfe
        have hu1 : linked F u e.1 := (ih hF' u e.1 hu he.1).mp hfe
        have hv2 : linked F v e.2.1 := (ih hF' v e.2.1 hv he.2).mp h₂
        exact linked_append_single_of (Or.inr (Or.inl ⟨hu1, linked_symm hv2⟩))
      · rw [if_neg h₁, if_neg h₂] at hfe
        exact linked_mono (fun f hf => List.mem_append_left _ hf)
          ((ih hF' u v hu hv).mp hfe)
    · intro hlk
      rcases linked_append_single hlk with h | ⟨h₁, h₂⟩ | ⟨h₁, h₂⟩
      · rw [(ih hF' u v hu hv).mpr h]
      · rw [(ih hF' u e.1 hu he.1).mpr h₁, (ih hF' v e.2.1 hv he.2).mpr (linked_symm h₂)]
        simp
      · rw [(ih hF' u e.2.1 hu he.2).mpr h₁, (ih hF' v e.1 hv he.1).mpr (linked_symm h₂)]
        simp

/-! ## Counting components -/

/-- The list of labels of the nodes `0..n-1` under the labelling of `F`. -/
def classList (n : ℕ) (F : List Edge) : List ℕ := (List.range n).map (labAt (labOf n F))

/-- Number of connected components of nodes `0..n-1` under the edges `F`. -/
def nclasses (n : ℕ) (F : List Edge) : ℕ := (classList n F).dedup.length

theorem classList_nil (n : ℕ) : classList n [] = List.range n := by
  unfold classList
  rw [labOf_nil]
  exact List.map_congr_left (fun u _ => labAt_range n u) |>.trans (List.map_id _)

theorem nclasses_nil (n : ℕ) : nclasses n [] = n := by
  unfold nclasses
  rw [classList_nil, List.Nodup.dedup (List.nodup_range n), List.length_range]

theorem nclasses_eq_card_image (n : ℕ) (F : List Edge) :
    nclasses n F = ((List.range n).toFinset.image (labAt (labOf n F))).card := by
  unfold nclasses classList
  rw [← List.card_toFinset]
  congr 1
  ext x
  simp

theorem classList_append_single (n : ℕ) (F : List Edge) (e : Edge) :
    classList n (F ++ [e]) = (classList n F).map
      (fun c => if c = labAt (labOf n F) e.2.1 then labAt (labOf n F) e.1 else c) := by
  unfold classList
  rw [List.map_map]
  refine List.map_congr_left (fun u hu => ?_)
  have hu' : u < n := List.mem_range.mp hu
  rw [labOf_append_single, labAt_union _ _ (by rw [length_labOf]; exact hu')]
  rfl

/-- Merging one existing label value into another existing, distinct
label value shrinks the number of distinct labels by exactly one. -/
theorem dedup_length_map_merge (M : List ℕ) (lu lv : ℕ) (hu : lu ∈ M) (hv : lv ∈ M)
    (hne : lu ≠ lv) :
    ((M.map (fun c => if c = lv then lu else c)).dedup.length) + 1 = M.dedup.length := by
  have himg : (M.map (fun c => if c = lv then lu else c)).toFinset = M.toFinset.erase lv := by
    ext x
    simp only [List.mem_toFinset, List.mem_map, Finset.mem_erase]
    constructor
    · rintro ⟨m, hm, rfl⟩
      by_cases hc : m = lv
      · rw [if_pos hc]; exact ⟨hne, hu⟩
      · rw [if_neg hc]; exact ⟨hc, hm⟩
    · rintro ⟨hx, hm⟩
      exact ⟨x, hm, by rw [if_neg hx]⟩
  rw [← List.card_toFinset, ← List.card_toFinset, himg,
    Finset.card_erase_add_one (List.mem_toFinset.mpr hv)]

/-- Adding an edge whose endpoints are not yet connected decreases the
component count by exactly one. -/
theorem nclasses_append_single_of_not_linked {n : ℕ} {F : List Edge} {e : Edge}
    (hF : ∀ f ∈ F, f.1 < n ∧ f.2.1 < n) (he1 : e.1 < n) (he2 : e.2.1 < n)
    (hnl : ¬ linked F e.1 e.2.1) :
    nclasses n (F ++ [e]) + 1 = nclasses n F := by
  have hne : labAt (labOf n F) e.1 ≠ labAt (labOf n F) e.2.1 := by
    intro h
    exact hnl ((labAt_eq_iff_linked n F hF e.1 e.2.1 he1 he2).mp h)
  have hu : labAt (labOf n F) e.1 ∈ classList n F := by
    unfold classList
    exact List.mem_map_of_mem _ (List.mem_range.mpr he1)
  have hv : labAt (labOf n F) e.2.1 ∈ classList n F := by
    unfold classList
    exact List.mem_map_of_mem _ (List.mem_range.mpr he2)
  unfold nclasses
  rw [classList_append_single]
  exact dedup_length_map_merge _ _ _ hu hv hne

/-- Adding an edge whose endpoints are already connected leaves the
labelling of the nodes unchanged. -/
theorem classList_append_single_of_linked {n : ℕ} {F : List Edge} {e : Edge}
    (hF : ∀ f ∈ F, f.1 < n ∧ f.2.1 < n) (he1 : e.1 < n) (he2 : e.2.1 < n)
    (hl : linked F e.1 e.2.1) :
    classList n (F ++ [e]) = classList n F := by
  have heq : labAt (labOf n F) e.1 = labAt (labOf n F) e.2.1 :=
    (labAt_eq_iff_linked n F hF e.1 e.2.1 he1 he2).mpr hl
  rw [classList_append_single]
  refine (List.map_congr_left (fun c _ => ?_)).trans (List.map_id _)
  by_cases hc : c = labAt (labOf n F) e.2.1
  · rw [if_pos hc, heq, hc]; rfl
  · rw [if_neg hc]; rfl

/-- If one map factors through another on a finite set, its image is no
larger. -/
theorem card_image_le_of_factor {α β : Type} [DecidableEq α] [DecidableEq β]
    (s : Finset α) (f g : α → β)
    (h : ∀ x ∈ s, ∀ y ∈ s, f x = f y → g x = g y) :
    (s.image g).card ≤ (s.image f).card := by
  induction s using Finset.induction_on with
  | empty => simp
  | insert hnotmem ih =>
    rename_i a s
    have hrec : ∀ x ∈ s, ∀ y ∈ s, f x = f y → g x = g y := fun x hx y hy =>
      h x (Finset.mem_insert_of_mem hx) y (Finset.mem_insert_of_mem hy)
    by_cases hfa : f a ∈ s.image f
    · obtain ⟨x, hx, hfx⟩ := Finset.mem_image.mp hfa
      have hga : g a = g x :=
        (h x (Finset.mem_insert_of_mem hx) a (Finset.mem_insert_self a s) hfx).symm
      have h1 : (insert a s).image f = s.image f := by
        rw [Finset.image_insert, Finset.insert_eq_self.mpr hfa]
      have h2 : (insert a s).image g = s.image g := by
        rw [Finset.image_insert, Finset.insert_eq_self.mpr
          (hga ▸ Finset.mem_image_of_mem g hx)]
      rw [h1, h2]
      exact ih hrec
    · rw [Finset.image_insert, Finset.image_insert,
        Finset.card_insert_of_not_mem hfa]
      calc (insert (g a) (s.image g)).card ≤ (s.image g).card + 1 :=
            Finset.card_insert_le _ _
        _ ≤ (s.image f).card + 1 := Nat.add_le_add_right (ih hrec) 1

/-- If connectivity under `I` implies connectivity under `F`, then `F`
has at most as many components. -/
theorem nclasses_le_of_linked_imp {n : ℕ} {I F : List Edge}
    (hI : ∀ f ∈ I, f.1 < n ∧ f.2.1 < n) (hF : ∀ f ∈ F, f.1 < n ∧ f.2.1 < n)
    (h : ∀ x y, x < n → y < n → linked I x y → linked F x y) :
    nclasses n F ≤ nclasses n I := by
  rw [nclasses_eq_card_image, nclasses_eq_card_image]
  refine card_image_le_of_factor _ _ _ (fun x hx y hy hxy => ?_)
  have hx' : x < n := List.mem_range.mp (List.mem_toFinset.mp hx)
  have hy' : y < n := List.mem_range.mp (List.mem_toFinset.mp hy)
  exact (labAt_eq_iff_linked n F hF x y hx' hy').mpr
    (h x y hx' hy' ((labAt_eq_iff_linked n I hI x y hx' hy').mp hxy))

/-- If all nodes are connected and there is at least one node, there is
exactly one component. -/
theorem nclasses_eq_one_of_spanning {n : ℕ} {F : List Edge}
    (hF : ∀ f ∈ F, f.1 < n ∧ f.2.1 < n) (hn : 1 ≤ n)
    (h : ∀ x y, x < n → y < n → linked F x y) :
    nclasses n F = 1 := by
  have hall : ∀ u ∈ List.range n, labAt (labOf n F) u = labAt (labOf n F) 0 :=
    fun u hu => (labAt_eq_iff_linked n F hF u 0 (List.mem_range.mp hu) hn).mpr
      (h u 0 (List.mem_range.mp hu) hn)
  unfold nclasses classList
  rw [List.map_congr_left hall, List.map_const', List.length_range,
    ← List.card_toFinset, List.toFinset_replicate_of_ne_zero (Nat.one_le_iff_ne_zero.mp hn),
    Finset.card_singleton]

/-! ## Forests -/

/-- An edge list is acyclic when it has no repeated edge and no edge
closes a cycle: removing any edge disconnects its own endpoints. -/
noncomputable def Acyclic (F : List Edge) : Prop :=
  F.Nodup ∧ ∀ e ∈ F, ¬ linked (F.erase e) e.1 e.2.1

theorem acyclic_nil : Acyclic [] := ⟨List.nodup_nil, fun e he => absurd he (List.not_mem_nil e)⟩

/-- Any duplicate-free selection out of a forest is a forest. -/
theorem acyclic_subset {I T : List Edge} (hnd : I.Nodup) (hsub : ∀ e ∈ I, e ∈ T)
    (hT : Acyclic T) : Acyclic I := by
  refine ⟨hnd, fun e he hlink => hT.2 e (hsub e he) ?_⟩
  refine linked_mono (fun f hf => ?_) hlink
  have hf' : f ≠ e ∧ f ∈ I := (List.Nodup.mem_erase_iff hnd).mp hf
  exact (List.mem_erase_of_ne hf'.1).mpr (hsub f hf'.2)

/-- Appending an edge between two previously disconnected nodes keeps
the list acyclic. -/
theorem acyclic_append {F : List Edge} {e : Edge} (hF : Acyclic F)
    (hnl : ¬ linked F e.1 e.2.1) : Acyclic (F ++ [e]) := by
  have hmem : e ∉ F := fun hm => hnl (linked_of_mem hm)
  constructor
  · exact List.Nodup.append hF.1 (List.nodup_singleton e)
      (List.disjoint_singleton.mpr hmem)
  · intro f hf
    rcases List.mem_append.mp hf with hfF | hfe
    · rw [List.erase_append_left _ hfF]
      intro hlink
      rcases linked_append_single hlink with h | ⟨h₁, h₂⟩ | ⟨h₁, h₂⟩
      · exact hF.2 f hfF h
      · -- a path through the new edge would close a cycle in F
        have hsub : ∀ g ∈ F.erase f, g ∈ F := fun g hg =>
          (List.erase_sublist f F).mem hg
        have hfe : linked F f.1 f.2.1 := linked_of_mem hfF
        exact hnl (linked_trans (linked_trans (linked_mono hsub (linked_symm h₁))
          hfe) (linked_mono hsub (linked_symm h₂)))
      · have hsub : ∀ g ∈ F.erase f, g ∈ F := fun g hg =>
          (List.erase_sublist f F).mem hg
        have hfe : linked F f.1 f.2.1 := linked_of_mem hfF
        exact hnl (linked_trans (linked_trans (linked_mono hsub h₂) (linked_symm hfe))
          (linked_mono hsub h₁))
    · have : f = e := List.mem_singleton.mp hfe
      subst this
      rw [List.erase_append_right _ hmem, List.erase_cons_head, List.append_nil]
      exact hnl

/-- A forest over the nodes `0..n-1` with `k` edges has `n - k`
components: `edges + components = n`. -/
theorem length_add_nclasses_of_acyclic {n : ℕ} :
    ∀ {I : List Edge}, (∀ f ∈ I, f.1 < n ∧ f.2.1 < n) → Acyclic I →
      I.length + nclasses n I = n := by
  intro I
  induction I using List.reverseRecOn with
  | nil => intro _ _; rw [nclasses_nil]; simp
  | append_singleton I e ih =>
    intro hI ha
    have hI' : ∀ f ∈ I, f.1 < n ∧ f.2.1 < n := fun f hf => hI f (List.mem_append_left _ hf)
    have he : e.1 < n ∧ e.2.1 < n := hI e (List.mem_append_right _ (List.mem_singleton_self _))
    have hndI : I.Nodup := (List.nodup_append.mp ha.1).1
    have hmem : e ∉ I := by
      intro hm
      have := (List.nodup_append.mp ha.1).2.2
      exact this hm (List.mem_singleton_self e)
    have herase : (I ++ [e]).erase e = I := by
      rw [List.erase_append_right _ hmem, List.erase_cons_head, List.append_nil]
    have hnl : ¬ linked I e.1 e.2.1 := by
      have := ha.2 e (List.mem_append_right _ (List.mem_singleton_self _))
      rwa [herase] at this
    have haI : Acyclic I :=
      acyclic_subset hndI (fun f hf => List.mem_append_left _ hf) ha
    have hcount := nclasses_append_single_of_not_linked hI' he.1 he.2 hnl
    have hih := ih hI' haI
    have : (I ++ [e]).length = I.length + 1 := by simp
    omega

/-! ## The Kruskal fold -/

/-- Master invariant of the Kruskal fold: starting from an acyclic
selection and its labelling, the fold (i) keeps the labelling in sync,
(ii) only appends processed edges, (iii) keeps endpoints in range,
(iv) keeps the selection acyclic, (v) preserves `edges + components`,
and (vi) ends with every processed edge's endpoints connected. -/
theorem kruskal_fold_inv (n : ℕ) :
    ∀ (es sel : List Edge),
      (∀ e ∈ es, e.1 < n ∧ e.2.1 < n) →
      (∀ e ∈ sel, e.1 < n ∧ e.2.1 < n) →
      Acyclic sel →
      (es.foldl kruskalStep (sel, labOf n sel)).2 =
          labOf n (es.foldl kruskalStep (sel, labOf n sel)).1
        ∧ (∃ extra, (es.foldl kruskalStep (sel, labOf n sel)).1 = sel ++ extra
            ∧ ∀ e ∈ extra, e ∈ es)
        ∧ (∀ e ∈ (es.foldl kruskalStep (sel, labOf n sel)).1, e.1 < n ∧ e.2.1 < n)
        ∧ Acyclic (es.foldl kruskalStep (sel, labOf n sel)).1
        ∧ (es.foldl kruskalStep (sel, labOf n sel)).1.length
            + nclasses n (es.foldl kruskalStep (sel, labOf n sel)).1
            = sel.length + nclasses n sel
        ∧ (∀ e ∈ es, linked (es.foldl kruskalStep (sel, labOf n sel)).1 e.1 e.2.1) := by
  intro es
  induction es with
  | nil =>
    intro sel _ hsel hacyc
    refine ⟨rfl, ⟨[], by simp⟩, hsel, hacyc, rfl, by simp⟩
  | cons e es ih =>
    intro sel hes hsel hacyc
    have he : e.1 < n ∧ e.2.1 < n := hes e (List.mem_cons_self e es)
    have hes' : ∀ f ∈ es, f.1 < n ∧ f.2.1 < n := fun f hf => hes f (List.mem_cons_of_mem e hf)
    by_cases hskip : labAt (labOf n sel) e.1 = labAt (labOf n sel) e.2.1
    · -- the edge is skipped: its endpoints are already connected
      have hstep : kruskalStep (sel, labOf n sel) e = (sel, labOf n sel) := by
        unfold kruskalStep
        rw [if_pos hskip]
      have hlinked : linked sel e.1 e.2.1 :=
        (labAt_eq_iff_linked n sel hsel e.1 e.2.1 he.1 he.2).mp hskip
      have hrest := ih sel hes' hsel hacyc
      rw [List.foldl_cons, hstep]
      obtain ⟨extra, hout, hextra⟩ := hrest.2.1
      refine ⟨hrest.1, ⟨extra, hout, fun f hf => List.mem_cons_of_mem e (hextra f hf)⟩,
        hrest.2.2.1, hrest.2.2.2.1, hrest.2.2.2.2.1, ?_⟩
      intro f hf
      rcases List.mem_cons.mp hf with rfl | hf'
      · refine linked_mono (fun g hg => ?_) hlinked
        rw [hout]
        exact List.mem_append_left _ hg
      · exact hrest.2.2.2.2.2 f hf'
    · -- the edge joins two components and is selected
      have hstep : kruskalStep (sel, labOf n sel) e =
          (sel ++ [e], labOf n (sel ++ [e])) := by
        unfold kruskalStep
        rw [if_neg hskip, labOf_append_single]
      have hnl : ¬ linked sel e.1 e.2.1 := fun hl =>
        hskip ((labAt_eq_iff_linked n sel hsel e.1 e.2.1 he.1 he.2).mpr hl)
      have hsel' : ∀ f ∈ sel ++ [e], f.1 < n ∧ f.2.1 < n := by
        intro f hf
        rcases List.mem_append.mp hf with hf | hf
        · exact hsel f hf
        · rw [List.mem_singleton.mp hf]; exact he
      have hacyc' : Acyclic (sel ++ [e]) := acyclic_append hacyc hnl
      have hrest := ih (sel ++ [e]) hes' hsel' hacyc'
      rw [List.foldl_cons, hstep]
      obtain ⟨extra, hout, hextra⟩ := hrest.2.1
      have hcount := nclasses_append_single_of_not_linked hsel he.1 he.2 hnl
      refine ⟨hrest.1,
        ⟨[e] ++ extra, by rw [hout, List.append_assoc], ?_⟩,
        hrest.2.2.1, hrest.2.2.2.1, ?_, ?_⟩
      · intro f hf
        rcases List.mem_append.mp hf with hf | hf
        · rw [List.mem_singleton.mp hf]; exact List.mem_cons_self e es
        · exact List.mem_cons_of_mem e (hextra f hf)
      · have h1 := hrest.2.2.2.2.1
        have h2 : (sel ++ [e]).length = sel.length + 1 := by simp
        omega
      · intro f hf
        rcases List.mem_cons.mp hf with rfl | hf'
        · refine linked_mono (fun g hg => ?_) (linked_of_mem
            (List.mem_append_right sel (List.mem_singleton_self f)))
          rw [hout]
          exact List.mem_append_left _ hg
        · exact hrest.2.2.2.2.2 f hf'

/-! ## Nonnegativity of the haversine distance -/

theorem arctan_nonneg_of_nonneg {x : ℝ} (h : 0 ≤ x) : 0 ≤ Real.arctan x := by
  have := Real.arctan_strictMono.monotone h
  rwa [Real.arctan_zero] at this

theorem atan2_nonneg {y x : ℝ} (hy : 0 ≤ y) : 0 ≤ atan2 y x := by
  unfold atan2
  rcases lt_trichotomy x 0 with hx | hx | hx
  · rw [if_neg (by linarith), if_pos hx, if_pos hy]
    have h1 : -(Real.pi / 2) < Real.arctan (y / x) := Real.neg_pi_div_two_lt_arctan _
    have h2 : 0 < Real.pi := Real.pi_pos
    linarith
  · subst hx
    rw [if_neg (lt_irrefl 0), if_neg (lt_irrefl 0)]
    rcases lt_or_eq_of_le hy with hy' | hy'
    · rw [if_pos hy']
      have := Real.pi_pos
      linarith
    · rw [if_neg (by rw [← hy']; exact lt_irrefl 0), if_neg (by rw [← hy']; exact lt_irrefl 0)]
  · rw [if_pos hx]
    exact arctan_nonneg_of_nonneg (div_nonneg hy (le_of_lt hx))

theorem haversine_nonneg (lat1 lon1 lat2 lon2 : ℝ) : 0 ≤ haversine lat1 lon1 lat2 lon2 := by
  simp only [haversine]
  have h : 0 ≤ atan2
      (Real.sqrt (Real.sin (radians (lat2 - lat1) / 2) ^ 2 +
        Real.cos (radians lat1) * Real.cos (radians lat2) *
          Real.sin (radians (lon2 - lon1) / 2) ^ 2))
      (Real.sqrt (1 - (Real.sin (radians (lat2 - lat1) / 2) ^ 2 +
        Real.cos (radians lat1) * Real.cos (radians lat2) *
          Real.sin (radians (lon2 - lon1) / 2) ^ 2))) :=
    atan2_nonneg (Real.sqrt_nonneg _)
  linarith

/-! ## Structure of the complete geodesic graph -/

theorem length_filter_range_lt (n i : ℕ) :
    ((List.range n).filter (fun j => decide (i < j))).length = n - (i + 1) := by
  induction n with
  | zero => simp
  | succ n ih =>
    rw [List.range_succ, List.filter_append, List.length_append, ih]
    by_cases h : i < n
    · have : (List.filter (fun j => decide (i < j)) [n]).length = 1 := by
        simp [List.filter_singleton, h]
      omega
    · have : (List.filter (fun j => decide (i < j)) [n]).length = 0 := by
        simp [List.filter_singleton, h]
      omega

theorem length_build_edges (coords : List LocatedPoint) :
    (build_geodesic_graph coords).edges.length =
      coords.length * (coords.length - 1) / 2 := by
  unfold build_geodesic_graph
  rw [List.length_flatMap]
  simp only [Function.comp_def, List.length_map, length_filter_range_lt]
  have hconv : ((List.range coords.length).map
      (fun i => coords.length - (i + 1))).sum
      = ∑ i in Finset.range coords.length, (coords.length - (i + 1)) := rfl
  rw [hconv, ← Finset.sum_range_reflect]
  have hcongr : ∀ j ∈ Finset.range coords.length,
      coords.length - (coords.length - 1 - j + 1) = j := by
    intro j hj
    have := Finset.mem_range.mp hj
    omega
  rw [Finset.sum_congr rfl hcongr, Finset.sum_range_id]

theorem mem_build_edges (coords : List LocatedPoint) (i j : ℕ) (w : ℝ) :
    ((i, j, w) : Edge) ∈ (build_geodesic_graph coords).edges ↔
      i < j ∧ j < coords.length ∧
        w = haversine (coords.getD i default).lat (coords.getD i default).lon
              (coords.getD j default).lat (coords.getD j default).lon := by
  unfold build_geodesic_graph
  simp only [List.mem_flatMap, List.mem_map, List.mem_filter, List.mem_range,
    Prod.mk.injEq, decide_eq_true_eq]
  constructor
  · rintro ⟨i', hi', j', ⟨⟨hj', hij'⟩, rfl, rfl, rfl⟩⟩
    exact ⟨hij', hj', rfl⟩
  · rintro ⟨hij, hj, rfl⟩
    exact ⟨i, lt_trans hij hj, j, ⟨⟨hj, hij⟩, rfl, rfl, rfl⟩⟩

theorem nodup_build_edges (coords : List LocatedPoint) :
    (build_geodesic_graph coords).edges.Nodup := by
  unfold build_geodesic_graph
  rw [List.nodup_flatMap]
  constructor
  · intro i _
    refine List.Nodup.map ?_ (List.Nodup.filter _ (List.nodup_range _))
    intro a b hab
    exact congrArg (fun e : Edge => e.2.1) hab
  · refine List.Pairwise.imp ?_ (List.pairwise_lt_range _)
    intro i j hij
    intro a hai haj
    obtain ⟨i', _, hi'⟩ := List.mem_map.mp hai
    obtain ⟨j', _, hj'⟩ := List.mem_map.mp haj
    have h1 : a.1 = i := by rw [← hi']
    have h2 : a.1 = j := by rw [← hj']
    exact absurd (h1 ▸ h2) (Nat.ne_of_lt hij)

/-! ## Sorted edges -/

theorem sortEdges_perm (es : List Edge) : (sortEdges es).Perm es :=
  List.mergeSort_perm es _

theorem sortEdges_sorted (es : List Edge) :
    (sortEdges es).Pairwise (fun a b : Edge => a.2.2 ≤ b.2.2) := by
  have h := @List.sorted_mergeSort Edge
    (fun a b : Edge => decide (a.2.2 ≤ b.2.2))
    (fun a b c h₁ h₂ => by
      simp only [decide_eq_true_eq] at h₁ h₂ ⊢
      exact le_trans h₁ h₂)
    (fun a b => by
      simp only [Bool.or_eq_true, decide_eq_true_eq]
      exact le_total a.2.2 b.2.2)
    es
  exact h.imp (fun hab => by simpa using hab)

/-! ## Structure of the computed spanning tree -/

theorem mst_structure (coords : List LocatedPoint) (hn : 1 ≤ coords.length) :
    (∀ e ∈ (build_mst_graph (build_geodesic_graph coords)).edges,
        e ∈ (build_geodesic_graph coords).edges)
    ∧ (∀ e ∈ (build_mst_graph (build_geodesic_graph coords)).edges,
        e.1 < coords.length ∧ e.2.1 < coords.length)
    ∧ Acyclic (build_mst_graph (build_geodesic_graph coords)).edges
    ∧ (build_mst_graph (build_geodesic_graph coords)).edges.length = coords.length - 1
    ∧ (∀ u v, u < coords.length → v < coords.length →
        linked (build_mst_graph (build_geodesic_graph coords)).edges u v) := by
  set n := coords.length with hnn
  set G := build_geodesic_graph coords with hG
  have hnodes : G.nodes = List.range n := rfl
  have hmem_edges : ∀ e ∈ G.edges, e.1 < e.2.1 ∧ e.2.1 < n ∧
      e.2.2 = haversine (coords.getD e.1 default).lat (coords.getD e.1 default).lon
        (coords.getD e.2.1 default).lat (coords.getD e.2.1 default).lon := by
    intro e he
    have := (mem_build_edges coords e.1 e.2.1 e.2.2).mp he
    exact this
  have hes : ∀ e ∈ sortEdges G.edges, e.1 < n ∧ e.2.1 < n := by
    intro e he
    have he' : e ∈ G.edges := (sortEdges_perm G.edges).mem_iff.mp he
    obtain ⟨h1, h2, _⟩ := hmem_edges e he'
    exact ⟨lt_trans h1 h2, h2⟩
  have hlen_nodes : G.nodes.length = n := by rw [hnodes, List.length_range]
  have hfold := kruskal_fold_inv n (sortEdges G.edges) [] hes
    (fun e he => absurd he (List.not_mem_nil e)) acyclic_nil
  -- the initial state of the fold is ([], labOf n [])
  have hinit : (build_mst_graph G).edges
      = ((sortEdges G.edges).foldl kruskalStep ([], labOf n [])).1 := by
    unfold build_mst_graph minimum_spanning_tree
    rw [hlen_nodes]
    rfl
  obtain ⟨_, ⟨extra, hout, hextra⟩, hbounds, hacyc, hcount, hmax⟩ := hfold
  rw [List.nil_append] at hout
  have hsubset : ∀ e ∈ (build_mst_graph G).edges, e ∈ G.edges := by
    intro e he
    rw [hinit, hout] at he
    exact (sortEdges_perm G.edges).mem_iff.mp (hextra e he)
  have hspan : ∀ u v, u < n → v < n → linked (build_mst_graph G).edges u v := by
    intro u v hu hv
    rcases Nat.lt_trichotomy u v with h | h | h
    · have hmem : ((u, v, haversine (coords.getD u default).lat (coords.getD u default).lon
          (coords.getD v default).lat (coords.getD v default).lon) : Edge) ∈ G.edges :=
        (mem_build_edges coords u v _).mpr ⟨h, hv, rfl⟩
      have : linked ((sortEdges G.edges).foldl kruskalStep ([], labOf n [])).1 u v :=
        hmax _ ((sortEdges_perm G.edges).mem_iff.mpr hmem)
      rwa [hinit]
    · subst h; exact linked_refl _ _
    · have hmem : ((v, u, haversine (coords.getD v default).lat (coords.getD v default).lon
          (coords.getD u default).lat (coords.getD u default).lon) : Edge) ∈ G.edges :=
        (mem_build_edges coords v u _).mpr ⟨h, hu, rfl⟩
      have : linked ((sortEdges G.edges).foldl kruskalStep ([], labOf n [])).1 v u :=
        hmax _ ((sortEdges_perm G.edges).mem_iff.mpr hmem)
      rw [hinit]
      exact linked_symm this
  have hbounds' : ∀ e ∈ (build_mst_graph G).edges, e.1 < n ∧ e.2.1 < n := by
    intro e he
    rw [hinit] at he
    exact hbounds e he
  have hacyc' : Acyclic (build_mst_graph G).edges := by rw [hinit]; exact hacyc
  have hlength : (build_mst_graph G).edges.length = n - 1 := by
    have hone : nclasses n (build_mst_graph G).edges = 1 :=
      nclasses_eq_one_of_spanning hbounds' hn hspan
    have hcount' : (build_mst_graph G).edges.length
        + nclasses n (build_mst_graph G).edges = 0 + nclasses n [] := by
      rw [hinit]; exact hcount
    rw [nclasses_nil, hone] at hcount'
    omega
  exact ⟨hsubset, hbounds', hacyc', hlength, hspan⟩

/-! ## Total weight and the greedy comparison -/

/-- Total weight of an edge list. -/
noncomputable def edgeWeightSum (F : List Edge) : ℝ := (F.map (fun e => e.2.2)).sum

theorem edgeWeightSum_append_single (F : List Edge) (e : Edge) :
    edgeWeightSum (F ++ [e]) = edgeWeightSum F + e.2.2 := by
  simp [edgeWeightSum]

theorem edgeWeightSum_perm {F F' : List Edge} (h : F.Perm F') :
    edgeWeightSum F = edgeWeightSum F' := (h.map _).sum_eq

/-- If every edge of `I` has its endpoints connected in `F`, then
`I`-connectivity implies `F`-connectivity. -/
theorem linked_of_edges_linked {I F : List Edge}
    (h : ∀ e ∈ I, linked F e.1 e.2.1) {x y : ℕ} (hxy : linked I x y) :
    linked F x y := by
  induction hxy with
  | refl => exact linked_refl _ _
  | tail _ hadj ih =>
    obtain ⟨w, hm | hm⟩ := hadj
    · exact linked_trans ih (h _ hm)
    · exact linked_trans ih (linked_symm (h _ hm))

/-- Abel-style comparison of two greedy selection sums: if `A` dominates
`B` pointwise, both grow from `0`, and the per-step costs `W` are
nondecreasing, then the selection sum of `A` exceeds that of `B` by at
most the surplus `(A k - B k)` priced at the latest cost. -/
theorem greedy_sum_aux (A B : ℕ → ℕ) (W : ℕ → ℝ) (m : ℕ)
    (hA0 : A 0 = 0) (hB0 : B 0 = 0)
    (hAmono : ∀ k, k < m → A k ≤ A (k + 1))
    (hBmono : ∀ k, k < m → B k ≤ B (k + 1))
    (hWmono : ∀ k, k + 1 < m → W k ≤ W (k + 1))
    (hBA : ∀ k, k ≤ m → B k ≤ A k) :
    ∀ k, k ≤ m →
      (∑ j in Finset.range k, ((A (j + 1) - A j : ℕ) : ℝ) * W j)
        ≤ (∑ j in Finset.range k, ((B (j + 1) - B j : ℕ) : ℝ) * W j)
          + ((A k - B k : ℕ) : ℝ) * W (k - 1) := by
  intro k
  induction k with
  | zero => intro _; simp [hA0, hB0]
  | succ k ih =>
    intro hk
    have hk' : k ≤ m := Nat.le_of_succ_le hk
    have hkm : k < m := hk
    have ihk := ih hk'
    rw [Finset.sum_range_succ, Finset.sum_range_succ]
    have hWk : W (k - 1) ≤ W k := by
      rcases Nat.eq_zero_or_pos k with hk0 | hk0
      · subst hk0; exact le_of_eq rfl
      · have : (k - 1) + 1 = k := Nat.succ_pred_eq_of_pos hk0
        have h := hWmono (k - 1) (by omega)
        rwa [this] at h
    have hsurnn : (0 : ℝ) ≤ ((A k - B k : ℕ) : ℝ) := Nat.cast_nonneg _
    have h1 : ((A k - B k : ℕ) : ℝ) * W (k - 1) ≤ ((A k - B k : ℕ) : ℝ) * W k :=
      mul_le_mul_of_nonneg_left hWk hsurnn
    have hcast : ((A k - B k : ℕ) : ℝ) + ((A (k + 1) - A k : ℕ) : ℝ)
        - ((B (k + 1) - B k : ℕ) : ℝ) = ((A (k + 1) - B (k + 1) : ℕ) : ℝ) := by
      rw [Nat.cast_sub (hBA k hk'), Nat.cast_sub (hAmono k hkm),
        Nat.cast_sub (hBmono k hkm), Nat.cast_sub (hBA (k + 1) hk)]
      ring
    have hWlast : W ((k + 1) - 1) = W k := by norm_num
    rw [hWlast]
    have key : ((A k - B k : ℕ) : ℝ) * W k + ((A (k + 1) - A k : ℕ) : ℝ) * W k
        - ((B (k + 1) - B k : ℕ) : ℝ) * W k = ((A (k + 1) - B (k + 1) : ℕ) : ℝ) * W k := by
      rw [← hcast]; ring
    linarith [ihk, h1, key]

/-- The two possible outcomes of one Kruskal step. -/
theorem kruskalStep_cases (acc : List Edge × List ℕ) (e : Edge) :
    (labAt acc.2 e.1 = labAt acc.2 e.2.1 ∧ kruskalStep acc e = acc) ∨
    (labAt acc.2 e.1 ≠ labAt acc.2 e.2.1 ∧
      kruskalStep acc e = (acc.1 ++ [e], unionLabels acc.2 e)) := by
  by_cases h : labAt acc.2 e.1 = labAt acc.2 e.2.1
  · left
    exact ⟨h, by unfold kruskalStep; rw [if_pos h]⟩
  · right
    exact ⟨h, by unfold kruskalStep; rw [if_neg h]⟩

/-- Kruskal's greedy selection over a weight-sorted, duplicate-free edge
list has minimal total weight among all spanning forests drawn from the
same edges. -/
theorem greedy_min (n : ℕ) (es : List Edge)
    (hes : ∀ e ∈ es, e.1 < n ∧ e.2.1 < n) (hnd : es.Nodup)
    (hsorted : es.Pairwise (fun a b : Edge => a.2.2 ≤ b.2.2))
    (T' : List Edge) (hT'sub : ∀ e ∈ T', e ∈ es) (hT'acyc : Acyclic T')
    (hT'span : ∀ x y, x < n → y < n → linked T' x y) :
    edgeWeightSum ((es.foldl kruskalStep ([], labOf n [])).1) ≤ edgeWeightSum T' := by
  classical
  set m := es.length with hm
  set d : Edge := (0, 0, 0) with hd
  -- prefix selections and prefix restrictions of the candidate tree
  set S : ℕ → List Edge := fun k => ((es.take k).foldl kruskalStep ([], labOf n [])).1
    with hSdef
  set Tk : ℕ → List Edge := fun k => (es.take k).filter (fun e => decide (e ∈ T'))
    with hTkdef
  set W : ℕ → ℝ := fun k => (es.getD k d).2.2 with hWdef
  have htake : ∀ k, ∀ e ∈ es.take k, e.1 < n ∧ e.2.1 < n :=
    fun k e he => hes e ((List.take_sublist k es).mem he)
  have hfold := fun k => kruskal_fold_inv n (es.take k) [] (htake k)
    (fun e he => absurd he (List.not_mem_nil e)) acyclic_nil
  have hSbounds : ∀ k, ∀ e ∈ S k, e.1 < n ∧ e.2.1 < n := fun k => (hfold k).2.2.1
  have hSacyc : ∀ k, Acyclic (S k) := fun k => (hfold k).2.2.2.1
  have hScount : ∀ k, (S k).length + nclasses n (S k) = n := by
    intro k
    have h := (hfold k).2.2.2.2.1
    simp only [List.length_nil, nclasses_nil, Nat.zero_add] at h
    simp only [hSdef]
    exact h
  have hSmax : ∀ k, ∀ e ∈ es.take k, linked (S k) e.1 e.2.1 := fun k => (hfold k).2.2.2.2.2
  -- per-step evolution of the selection
  have htakesucc : ∀ k, k < m → es.take (k + 1) = es.take k ++ [es.getD k d] := by
    intro k hk
    rw [List.take_succ, List.getElem?_eq_getElem hk]
    rw [List.getD_eq_getElem?_getD, List.getElem?_eq_getElem hk]
    rfl
  have hSstep : ∀ k, k < m →
      S (k + 1) = S k ∨ S (k + 1) = S k ++ [es.getD k d] := by
    intro k hk
    have hrw : S (k + 1) = (kruskalStep ((es.take k).foldl kruskalStep ([], labOf n []))
        (es.getD k d)).1 := by
      simp only [hSdef]
      rw [htakesucc k hk, List.foldl_append, List.foldl_cons, List.foldl_nil]
    rcases kruskalStep_cases ((es.take k).foldl kruskalStep ([], labOf n []))
        (es.getD k d) with ⟨_, heq⟩ | ⟨_, heq⟩
    · left
      rw [hrw, heq]
    · right
      rw [hrw, heq]
  have hTkstep : ∀ k, k < m →
      Tk (k + 1) = Tk k ∨ Tk (k + 1) = Tk k ++ [es.getD k d] := by
    intro k hk
    have hrw : Tk (k + 1) = Tk k ++ ([es.getD k d].filter (fun e => decide (e ∈ T'))) := by
      simp only [hTkdef]
      rw [htakesucc k hk, List.filter_append]
    rw [hrw]
    by_cases hmem : es.getD k d ∈ T'
    · right
      rw [List.filter_singleton, decide_eq_true hmem, Bool.cond_true]
    · left
      rw [List.filter_singleton, decide_eq_false hmem, Bool.cond_false, List.append_nil]
  -- the two partial sums
  set A : ℕ → ℕ := fun k => (S k).length with hAdef
  set B : ℕ → ℕ := fun k => (Tk k).length with hBdef
  have hS0 : S 0 = [] := by simp [hSdef]
  have hTk0 : Tk 0 = [] := by simp [hTkdef]
  have hsumS : ∀ k, k ≤ m → edgeWeightSum (S k)
      = ∑ j in Finset.range k, ((A (j + 1) - A j : ℕ) : ℝ) * W j := by
    intro k
    induction k with
    | zero =>
      intro _
      rw [hS0]
      simp [edgeWeightSum]
    | succ k ih =>
      intro hk
      rw [Finset.sum_range_succ, ← ih (Nat.le_of_succ_le hk)]
      rcases hSstep k hk with h | h
      · simp only [hAdef]
        rw [h]
        simp
      · simp only [hAdef]
        rw [h, edgeWeightSum_append_single, List.length_append]
        simp [hWdef]
  have hsumTk : ∀ k, k ≤ m → edgeWeightSum (Tk k)
      = ∑ j in Finset.range k, ((B (j + 1) - B j : ℕ) : ℝ) * W j := by
    intro k
    induction k with
    | zero =>
      intro _
      rw [hTk0]
      simp [edgeWeightSum]
    | succ k ih =>
      intro hk
      rw [Finset.sum_range_succ, ← ih (Nat.le_of_succ_le hk)]
      rcases hTkstep k hk with h | h
      · simp only [hBdef]
        rw [h]
        simp
      · simp only [hBdef]
        rw [h, edgeWeightSum_append_single, List.length_append]
        simp [hWdef]
  -- prefix restrictions of the candidate tree are acyclic subsets
  have hTknd : ∀ k, (Tk k).Nodup := fun k =>
    List.Nodup.sublist ((List.filter_sublist _).trans (List.take_sublist _ _)) hnd
  have hTksubT' : ∀ k, ∀ e ∈ Tk k, e ∈ T' := by
    intro k e he
    have := List.of_mem_filter he
    simpa using this
  have hTkacyc : ∀ k, Acyclic (Tk k) := fun k =>
    acyclic_subset (hTknd k) (hTksubT' k) hT'acyc
  have hTkbounds : ∀ k, ∀ e ∈ Tk k, e.1 < n ∧ e.2.1 < n := fun k e he =>
    hes e ((List.take_sublist k es).mem ((List.filter_sublist _).mem he))
  have hTkcount : ∀ k, (Tk k).length + nclasses n (Tk k) = n := fun k =>
    length_add_nclasses_of_acyclic (hTkbounds k) (hTkacyc k)
  -- dominance: at every prefix Kruskal has selected at least as much
  have hBA : ∀ k, k ≤ m → (Tk k).length ≤ (S k).length := by
    intro k _
    have hcoars : ∀ x y, x < n → y < n → linked (Tk k) x y → linked (S k) x y := by
      intro x y _ _ h
      refine linked_of_edges_linked ?_ h
      intro e he
      exact hSmax k e ((List.filter_sublist _).mem he)
    have hle := nclasses_le_of_linked_imp (hTkbounds k) (hSbounds k) hcoars
    have h1 := hScount k
    have h2 := hTkcount k
    omega
  -- at the end both select a maximal spanning forest of the same size
  have htakefull : es.take m = es := by rw [hm]; exact List.take_length es
  have hTkm_mem : ∀ e, e ∈ Tk m ↔ e ∈ T' := by
    intro e
    constructor
    · exact hTksubT' m e
    · intro he
      simp only [hTkdef]
      rw [htakefull]
      exact List.mem_filter.mpr ⟨hT'sub e he, by simpa using he⟩
  have hABm : (S m).length = (Tk m).length := by
    have hcoars2 : ∀ x y, x < n → y < n → linked (S m) x y → linked (Tk m) x y := by
      intro x y hx hy _
      refine linked_mono (fun e he => (hTkm_mem e).mpr he) (hT'span x y hx hy)
    have hle2 := nclasses_le_of_linked_imp (hSbounds m) (hTkbounds m) hcoars2
    have hBAm := hBA m (le_refl m)
    have h1 := hScount m
    have h2 := hTkcount m
    omega
  -- weights are sorted along the ground list
  have hWmono : ∀ k, k + 1 < m → W k ≤ W (k + 1) := by
    intro k hk
    have hk1 : k < m := Nat.lt_of_succ_lt hk
    have hget : ∀ i (h : i < m), es.getD i d = es.get ⟨i, h⟩ := by
      intro i h
      rw [List.getD_eq_getElem?_getD, List.getElem?_eq_getElem h]
      rfl
    simp only [hWdef]
    rw [hget k hk1, hget (k + 1) hk]
    exact List.pairwise_iff_get.mp hsorted ⟨k, hk1⟩ ⟨k + 1, hk⟩ (by simp)
  -- assemble
  have hmain := greedy_sum_aux A B W m
    (by simp [hAdef, hS0])
    (by simp [hBdef, hTk0])
    (fun k hk => by
      simp only [hAdef]
      rcases hSstep k hk with h | h <;> rw [h] <;> simp)
    (fun k hk => by
      simp only [hBdef]
      rcases hTkstep k hk with h | h <;> rw [h] <;> simp)
    hWmono
    (fun k hk => by
      simp only [hAdef, hBdef]
      exact hBA k hk)
    m (le_refl m)
  rw [← hsumS m (le_refl m), ← hsumTk m (le_refl m)] at hmain
  have hABm' : A m = B m := by
    simp only [hAdef, hBdef]
    exact hABm
  rw [hABm'] at hmain
  simp only [Nat.sub_self, Nat.cast_zero, zero_mul, add_zero] at hmain
  have hperm : (Tk m).Perm T' :=
    (List.perm_ext_iff_of_nodup (hTknd m) hT'acyc.1).mpr hTkm_mem
  have hfinal : edgeWeightSum (Tk m) = edgeWeightSum T' := edgeWeightSum_perm hperm
  have hfull : S m = (es.foldl kruskalStep ([], labOf n [])).1 := by
    simp only [hSdef]
    rw [htakefull]
  rw [← hfull, ← hfinal]
  exact hmain

/-- The computed spanning tree has minimal total weight among all
acyclic spanning edge selections from the complete geodesic graph. -/
theorem mst_minimal (coords : List LocatedPoint) (T' : List Edge)
    (hsub : ∀ e ∈ T', e ∈ (build_geodesic_graph coords).edges)
    (hacyc : Acyclic T')
    (hspan : ∀ u v, u < coords.length → v < coords.length → linked T' u v) :
    edgeWeightSum (build_mst_graph (build_geodesic_graph coords)).edges
      ≤ edgeWeightSum T' := by
  have hes : ∀ e ∈ sortEdges (build_geodesic_graph coords).edges,
      e.1 < coords.length ∧ e.2.1 < coords.length := by
    intro e he
    have he' := (sortEdges_perm _).mem_iff.mp he
    obtain ⟨h1, h2, _⟩ := (mem_build_edges coords e.1 e.2.1 e.2.2).mp he'
    exact ⟨lt_trans h1 h2, h2⟩
  have hnd : (sortEdges (build_geodesic_graph coords).edges).Nodup :=
    ((sortEdges_perm _).nodup_iff).mpr (nodup_build_edges coords)
  have hT'sub : ∀ e ∈ T', e ∈ sortEdges (build_geodesic_graph coords).edges :=
    fun e he => (sortEdges_perm _).mem_iff.mpr (hsub e he)
  have hmin := greedy_min coords.length (sortEdges (build_geodesic_graph coords).edges)
    hes hnd (sortEdges_sorted _) T' hT'sub hacyc hspan
  have hinit : (build_mst_graph (build_geodesic_graph coords)).edges
      = ((sortEdges (build_geodesic_graph coords).edges).foldl kruskalStep
          ([], labOf coords.length [])).1 := by
    unfold build_mst_graph minimum_spanning_tree
    have hlen : (build_geodesic_graph coords).nodes.length = coords.length := by
      show (List.range coords.length).length = coords.length
      exact List.length_range coords.length
    rw [hlen]
    rfl
  rw [hinit]
  exact hmin

/-! ## Values of the haversine function -/

theorem radians_zero : radians 0 = 0 := by simp [radians]

theorem haversine_self (lat lon : ℝ) : haversine lat lon lat lon = 0 := by
  unfold haversine
  simp only [sub_self, radians_zero, zero_div, Real.sin_zero, ne_eq,
    OfNat.ofNat_ne_zero, not_false_eq_true, zero_pow, mul_zero, add_zero,
    Real.sqrt_zero, sub_zero, Real.sqrt_one]
  have h : atan2 0 1 = 0 := by
    unfold atan2
    rw [if_pos (by norm_num : (0:ℝ) < 1)]
    simp [Real.arctan_zero]
  rw [h, mul_zero]

theorem haversine_one_degree : haversine 0 0 1 0 = 6371000 * Real.pi / 180 := by
  unfold haversine
  have hpi := Real.pi_pos
  simp only [sub_zero, sub_self, radians_zero, zero_div, Real.sin_zero, ne_eq,
    OfNat.ofNat_ne_zero, not_false_eq_true, zero_pow, mul_zero, add_zero]
  have hθpos : (0:ℝ) < radians 1 / 2 := by
    unfold radians
    positivity
  have hθlt : radians 1 / 2 < Real.pi / 2 := by
    unfold radians
    rw [div_lt_div_iff (by norm_num) (by norm_num)]
    nlinarith
  have hθltpi : radians 1 / 2 < Real.pi := lt_trans hθlt (by linarith)
  have hsin : 0 < Real.sin (radians 1 / 2) := Real.sin_pos_of_pos_of_lt_pi hθpos hθltpi
  have hcos : 0 < Real.cos (radians 1 / 2) :=
    Real.cos_pos_of_mem_Ioo ⟨by linarith, hθlt⟩
  rw [Real.sqrt_sq (le_of_lt hsin)]
  have h1 : 1 - Real.sin (radians 1 / 2) ^ 2 = Real.cos (radians 1 / 2) ^ 2 := by
    have := Real.sin_sq_add_cos_sq (radians 1 / 2)
    linarith
  rw [h1, Real.sqrt_sq (le_of_lt hcos)]
  have hatan : atan2 (Real.sin (radians 1 / 2)) (Real.cos (radians 1 / 2))
      = radians 1 / 2 := by
    unfold atan2
    rw [if_pos hcos, ← Real.tan_eq_sin_div_cos,
      Real.arctan_tan (by linarith) hθlt]
  rw [hatan]
  unfold radians
  ring

/-- C8: the geodesic distance function returns exactly `0` on identical
coordinates, and `haversine 0 0 1 0`, expressed in kilometers, lies
strictly between 110 and 112 (it equals `6371000·π/180 ≈ 111.19` km). -/
theorem C8_haversine_values :
    (∀ lat lon : ℝ, haversine lat lon lat lon = 0)
    ∧ 110 < haversine 0 0 1 0 / 1000 ∧ haversine 0 0 1 0 / 1000 < 112 := by
  refine ⟨haversine_self, ?_, ?_⟩
  · rw [haversine_one_degree]
    have h := Real.pi_gt_d6
    rw [lt_div_iff₀ (by norm_num : (0:ℝ) < 1000)]
    nlinarith
  · rw [haversine_one_degree]
    have h := Real.pi_lt_d2
    rw [div_lt_iff₀ (by norm_num : (0:ℝ) < 1000)]
    nlinarith

/-! ## Claim theorems -/

/-- C9: `get_default_tags` is case-insensitive (it matches on the
lowercased mode, so two modes with the same lowercasing get the same
result, e.g. `"AUTO"` and `"auto"`), returns the fixed tag mapping for
each of `auto`, `aero`, `sea`, `rail`, and raises `ValueError` (here:
returns `none`) exactly when the lowercased mode is none of the four. -/
theorem C9_get_default_tags :
    (∀ s t : String, strLower s = strLower t → get_default_tags s = get_default_tags t)
    ∧ get_default_tags "AUTO" = get_default_tags "auto"
    ∧ get_default_tags "auto" = some [("building", .strs ["warehouse", "depot", "industrial"])]
    ∧ get_default_tags "aero" = some [("aeroway", .strs ["terminal", "hangar", "cargo"])]
    ∧ get_default_tags "sea" = some [("harbour", .flag true), ("man_made", .strs ["pier", "dock"])]
    ∧ get_default_tags "rail" = some [("railway", .strs ["station", "yard", "cargo_terminal"])]
    ∧ (∀ s : String, get_default_tags s = none ↔
        strLower s ≠ "auto" ∧ strLower s ≠ "aero" ∧ strLower s ≠ "sea"
          ∧ strLower s ≠ "rail") := by
  refine ⟨?_, by decide, by decide, by decide, by decide, by decide, ?_⟩
  · intro s t h
    unfold get_default_tags
    rw [h]
  · intro s
    simp only [get_default_tags]
    split_ifs with h1 h2 h3 h4 <;> simp_all

/-- Witness for C9 at a concrete pair of modes differing only in case. -/
theorem C9_get_default_tags_witness :
    strLower "AuTo" = strLower "auto"
    ∧ get_default_tags "AuTo" = get_default_tags "auto"
    ∧ (get_default_tags "xyz" = none ↔
        strLower "xyz" ≠ "auto" ∧ strLower "xyz" ≠ "aero" ∧ strLower "xyz" ≠ "sea"
          ∧ strLower "xyz" ≠ "rail") :=
  ⟨by decide, C9_get_default_tags.1 "AuTo" "auto" (by decide),
    C9_get_default_tags.2.2.2.2.2.2 "xyz"⟩

/-- C5: the Distance Graph Builder returns one node per point
(`0..n-1`), for `n ≥ 2` exactly `n(n-1)/2` edges, one per unordered pair
`i < j < n`, each weighted by the nonnegative haversine distance of its
endpoints, and no edges at all for `n ≤ 1`. -/
theorem C5_build_geodesic_graph_spec (coords : List LocatedPoint) :
    (build_geodesic_graph coords).nodes = List.range coords.length
    ∧ (2 ≤ coords.length →
        (build_geodesic_graph coords).edges.length
          = coords.length * (coords.length - 1) / 2)
    ∧ (∀ e ∈ (build_geodesic_graph coords).edges,
        e.1 < e.2.1 ∧ e.2.1 < coords.length ∧
        e.2.2 = haversine (coords.getD e.1 default).lat (coords.getD e.1 default).lon
          (coords.getD e.2.1 default).lat (coords.getD e.2.1 default).lon ∧
        0 ≤ e.2.2)
    ∧ (∀ i j : ℕ, i < j → j < coords.length →
        ∃ w, ((i, j, w) : Edge) ∈ (build_geodesic_graph coords).edges)
    ∧ (coords.length ≤ 1 → (build_geodesic_graph coords).edges = []) := by
  refine ⟨rfl, fun _ => length_build_edges coords, ?_, ?_, ?_⟩
  · intro e he
    obtain ⟨h1, h2, h3⟩ := (mem_build_edges coords e.1 e.2.1 e.2.2).mp he
    exact ⟨h1, h2, h3, h3 ▸ haversine_nonneg _ _ _ _⟩
  · intro i j hij hj
    exact ⟨_, (mem_build_edges coords i j _).mpr ⟨hij, hj, rfl⟩⟩
  · intro hn
    have hlen := length_build_edges coords
    have hzero : coords.length * (coords.length - 1) / 2 = 0 := by
      interval_cases h : coords.length <;> simp
    rw [hzero] at hlen
    exact List.eq_nil_of_length_eq_zero hlen

/-- Witness for C5 on the three-point example of the spec. -/
theorem C5_build_geodesic_graph_spec_witness :
    2 ≤ ([⟨59.9, 30.3, []⟩, ⟨59.8, 30.4, []⟩, ⟨59.7, 30.5, []⟩] : List LocatedPoint).length
    ∧ (build_geodesic_graph
        [⟨59.9, 30.3, []⟩, ⟨59.8, 30.4, []⟩, ⟨59.7, 30.5, []⟩]).edges.length = 3 := by
  refine ⟨by decide, ?_⟩
  rw [(C5_build_geodesic_graph_spec
    [⟨59.9, 30.3, []⟩, ⟨59.8, 30.4, []⟩, ⟨59.7, 30.5, []⟩]).2.1 (by decide)]
  rfl

/-- C7 is false on the code: `extract_coordinates` performs no range or
finiteness validation — a point record with latitude `200` flows through
unchanged (neither dropped nor reported nor failing), so it is not the
case that every extracted point has latitude in `[-90, 90]`. -/
theorem C7_counterexample :
    extract_coordinates [⟨Geometry.point 0 200, []⟩]
      = [{ lat := 200, lon := 0, tags := [] }]
    ∧ ¬ ((200:ℝ) ≤ 90) := by
  constructor
  · rfl
  · norm_num

/-- C7 amended: the extractor validates nothing — it returns exactly one
point per record, in order, whose coordinates are the record's resolved
coordinates (raw for points, the shapely centroid for (multi)polygons),
whatever their values, and whose tags are the record's attribute bag;
nothing is ever dropped, reported or raised. -/
theorem C7_amended (gdf : List FacilityRecord) :
    (extract_coordinates gdf).length = gdf.length
    ∧ ∀ i : ℕ, (extract_coordinates gdf).getD i default
        = { lat := resolveLat (gdf.getD i ⟨Geometry.point 0 0, []⟩).geometry,
            lon := resolveLon (gdf.getD i ⟨Geometry.point 0 0, []⟩).geometry,
            tags := (gdf.getD i ⟨Geometry.point 0 0, []⟩).attrs } := by
  constructor
  · exact List.length_map _ _
  · intro i
    rcases Nat.lt_or_ge i gdf.length with h | h
    · unfold extract_coordinates
      rw [List.getD_eq_getElem?_getD, List.getElem?_map,
        List.getElem?_eq_getElem h, List.getD_eq_getElem?_getD,
        List.getElem?_eq_getElem h]
      rfl
    · unfold extract_coordinates
      rw [List.getD_eq_getElem?_getD, List.getElem?_eq_none (by simpa using h),
        List.getD_eq_getElem?_getD, List.getElem?_eq_none (by simpa using h)]
      rfl

/-- A router whose network download always raises. -/
def errorRouter : Router := ⟨fun _ => .error ()⟩

/-- C2 names a real divergence between the code and its own test suite:
on an empty feature set, `generate_logistics_mst` returns the dict
`{"status": "no_data", "message": ...}` — carrying no `nodes_count`,
`edges_count` or `total_distance` fields at all, and with a status that
is not the success status `"ok"` asserted by
`test_generate_logistics_mst_empty_gdf`. -/
theorem C2_empty_input_no_data :
    generate_logistics_mst errorRouter [] (0, 0, 0, 0) "auto" "out.html"
      = Except.ok (MstResponse.noData "no_data" "Нет логистических объектов в области.")
    ∧ "no_data" ≠ "ok" := by
  constructor
  · rfl
  · decide

/-- C6: for every Builder graph over `n ≥ 1` points, the Spanning Tree
Engine returns a subgraph with the same node set and exactly `n - 1`
edges, acyclic and connecting all nodes, whose total weight is minimal
among all acyclic spanning edge selections from the graph; for 0 or 1
nodes the edge set is empty. -/
theorem C6_mst_spec (coords : List LocatedPoint) (hn : 1 ≤ coords.length) :
    (build_mst_graph (build_geodesic_graph coords)).nodes
        = (build_geodesic_graph coords).nodes
    ∧ (build_mst_graph (build_geodesic_graph coords)).edges.length = coords.length - 1
    ∧ Acyclic (build_mst_graph (build_geodesic_graph coords)).edges
    ∧ (∀ u v, u < coords.length → v < coords.length →
        linked (build_mst_graph (build_geodesic_graph coords)).edges u v)
    ∧ (∀ T' : List Edge, (∀ e ∈ T', e ∈ (build_geodesic_graph coords).edges) →
        Acyclic T' →
        (∀ u v, u < coords.length → v < coords.length → linked T' u v) →
        edgeWeightSum (build_mst_graph (build_geodesic_graph coords)).edges
          ≤ edgeWeightSum T')
    ∧ (coords.length ≤ 1 → (build_mst_graph (build_geodesic_graph coords)).edges = []) := by
  obtain ⟨hsub, hbounds, hacyc, hlen, hspan⟩ := mst_structure coords hn
  refine ⟨rfl, hlen, hacyc, hspan,
    fun T' h1 h2 h3 => mst_minimal coords T' h1 h2 h3, ?_⟩
  intro h1
  have h0 : coords.length - 1 = 0 := by omega
  rw [h0] at hlen
  exact List.eq_nil_of_length_eq_zero hlen

/-- Witness for C6 at a single concrete point. -/
theorem C6_mst_spec_witness :
    1 ≤ ([⟨0, 0, []⟩] : List LocatedPoint).length
    ∧ (build_mst_graph (build_geodesic_graph [⟨0, 0, []⟩])).edges.length = 0 :=
  ⟨by decide, by
    have h := (C6_mst_spec [⟨0, 0, []⟩] (by decide)).2.1
    simpa using h⟩

/-! ## Composition lemmas for concrete pipeline runs -/

/-- If the road-network download raises, `visualize_mst_map` raises. -/
theorem visualize_fetch_error (router : Router) (coords : List LocatedPoint)
    (mst : WGraph) (bbox : Bbox) (mode out : String)
    (h : router.fetchGraph bbox = .error ()) :
    visualize_mst_map router coords mst bbox mode out = .error () := by
  unfold visualize_mst_map
  simp only [h]

/-- If the snapping of the points raises, `visualize_mst_map` raises. -/
theorem visualize_snap_error (router : Router) (coords : List LocatedPoint)
    (mst : WGraph) (bbox : Bbox) (mode out : String) (g : RoadGraph)
    (hf : router.fetchGraph bbox = .ok g)
    (hs : g.nearestNodes (coords.map (fun c => (c.lon, c.lat))) = .error ()) :
    visualize_mst_map router coords mst bbox mode out = .error () := by
  unfold visualize_mst_map
  simp only [hf, hs]

/-- If the rendering stage raises, `generate_logistics_mst` raises. -/
theorem generate_vis_error (router : Router) (gdf : List FacilityRecord)
    (bbox : Bbox) (mode out : String) (tags : List (String × TagValue))
    (hmode : get_default_tags mode = some tags) (hne : gdf.isEmpty = false)
    (hvis : visualize_mst_map router (extract_coordinates gdf)
        (build_mst_graph (build_geodesic_graph (extract_coordinates gdf)))
        bbox mode out = .error ()) :
    generate_logistics_mst router gdf bbox mode out = .error () := by
  unfold generate_logistics_mst
  simp only [hmode, hne, hvis, Bool.false_eq_true, if_false]

/-- If the rendering stage succeeds, `generate_logistics_mst` assembles
the result from the extracted points and the MST edges. -/
theorem generate_eq (router : Router) (gdf : List FacilityRecord)
    (bbox : Bbox) (mode out : String) (tags : List (String × TagValue))
    (hmode : get_default_tags mode = some tags) (hne : gdf.isEmpty = false)
    (res : List EdgeDraw × String)
    (hvis : visualize_mst_map router (extract_coordinates gdf)
        (build_mst_graph (build_geodesic_graph (extract_coordinates gdf)))
        bbox mode out = .ok res) :
    generate_logistics_mst router gdf bbox mode out = Except.ok (MstResponse.result
      { nodes_count := ((extract_coordinates gdf).map (fun row =>
          ({ lat := row.lat, lon := row.lon, tags := cleanTags row.tags } : ResultPoint))).length
        edges_count := ((build_mst_graph (build_geodesic_graph
            (extract_coordinates gdf))).edges.map (fun e =>
          ({ from_index := e.1, to_index := e.2.1, distance := e.2.2 } : ResultEdge))).length
        total_distance := ((build_mst_graph (build_geodesic_graph
            (extract_coordinates gdf))).edges.map (fun e => e.2.2)).sum
        points := (extract_coordinates gdf).map (fun row =>
          { lat := row.lat, lon := row.lon, tags := cleanTags row.tags })
        edges := (build_mst_graph (build_geodesic_graph
            (extract_coordinates gdf))).edges.map (fun e =>
          { from_index := e.1, to_index := e.2.1, distance := e.2.2 })
        map_path := res.2
        mode := mode
        bbox := bbox
        status := "ok" }) := by
  unfold generate_logistics_mst
  simp only [hmode, hne, hvis, Bool.false_eq_true, if_false]

/-- A single concrete facility record. -/
def sampleRecord : FacilityRecord := ⟨Geometry.point 0 0, []⟩

/-- C3 is false on the code: `ox.graph_from_bbox` is called outside any
`try`, so a systemic provider failure propagates and the pipeline
invocation fails with an exception instead of returning a
geodesic-weighted result. -/
theorem C3_counterexample :
    generate_logistics_mst errorRouter [sampleRecord] (0, 0, 0, 0) "auto" "out.html"
      = Except.error () :=
  generate_vis_error errorRouter [sampleRecord] (0, 0, 0, 0) "auto" "out.html"
    _ rfl rfl
    (visualize_fetch_error errorRouter _ _ _ _ _ rfl)

/-- C3 amended: when the road-network download for the bounding region
raises and the input is nonempty (and the mode is valid), the exception
propagates out of `visualize_mst_map` and `generate_logistics_mst`: the
whole pipeline invocation fails, rather than degrading to geodesic
weights. -/
theorem C3_amended (router : Router) (gdf : List FacilityRecord) (bbox : Bbox)
    (mode out : String) (tags : List (String × TagValue))
    (hmode : get_default_tags mode = some tags)
    (hne : gdf.isEmpty = false)
    (hfetch : router.fetchGraph bbox = .error ()) :
    generate_logistics_mst router gdf bbox mode out = Except.error () :=
  generate_vis_error router gdf bbox mode out tags hmode hne
    (visualize_fetch_error router _ _ _ _ _ hfetch)

/-- Witness for C3 amended at a concrete failing router. -/
theorem C3_amended_witness :
    get_default_tags "auto" = some [("building", .strs ["warehouse", "depot", "industrial"])]
    ∧ ([sampleRecord].isEmpty = false)
    ∧ errorRouter.fetchGraph (1, 2, 3, 4) = .error ()
    ∧ generate_logistics_mst errorRouter [sampleRecord] (1, 2, 3, 4) "auto" "m.html"
        = Except.error () :=
  ⟨rfl, rfl, rfl,
    C3_amended errorRouter [sampleRecord] (1, 2, 3, 4) "auto" "m.html" _ rfl rfl rfl⟩

/-- A road network whose snapping query raises. -/
def snapFailGraph : RoadGraph :=
  { nearestNodes := fun _ => .error ()
    shortestPath := fun _ _ => .ok none
    routeLength := fun _ => .ok 0 }

/-- A router delivering `snapFailGraph`. -/
def snapFailRouter : Router := ⟨fun _ => .ok snapFailGraph⟩

/-- C4 is false on the code: a snapping failure (`nearest_nodes`,
performed once for all points and not wrapped in any `try`) raises out
of the refinement stage and fails the whole pipeline invocation. -/
theorem C4_counterexample :
    generate_logistics_mst snapFailRouter [sampleRecord] (0, 0, 0, 0) "auto" "out.html"
      = Except.error () :=
  generate_vis_error snapFailRouter [sampleRecord] (0, 0, 0, 0) "auto" "out.html"
    _ rfl rfl
    (visualize_snap_error snapFailRouter _ _ _ _ _ snapFailGraph rfl rfl)

/-- C4 amended: per-edge failures of the shortest-path query are
absorbed — an exception there is caught and treated as "no route", and
any edge without a usable route (no path, or a path with at most one
node) is drawn with its geodesic fallback distance, never raising; but
the snapping step (`nearest_nodes`) is unguarded, and its failure
propagates out of the refiner to the caller. -/
theorem C4_amended :
    (∀ (g : RoadGraph) (u v : ℕ), g.shortestPath u v = .error () →
      routeOrNone g u v = none)
    ∧ (∀ (g : RoadGraph) (coords : List LocatedPoint) (snapped : List ℕ) (e : Edge),
        (∀ route, routeOrNone g (snapped.getD e.1 0) (snapped.getD e.2.1 0) = some route →
          route.length ≤ 1) →
        drawEdge g coords snapped e = .ok (.fallback (fallbackKm coords e)))
    ∧ (∀ (router : Router) (coords : List LocatedPoint) (mst : WGraph) (bbox : Bbox)
        (mode out : String) (g : RoadGraph),
        router.fetchGraph bbox = .ok g →
        g.nearestNodes (coords.map (fun c => (c.lon, c.lat))) = .error () →
        visualize_mst_map router coords mst bbox mode out = .error ()) := by
  refine ⟨?_, ?_, ?_⟩
  · intro g u v h
    unfold routeOrNone
    rw [h]
  · intro g coords snapped e hroute
    unfold drawEdge
    cases hr : routeOrNone g (snapped.getD e.1 0) (snapped.getD e.2.1 0) with
    | none => simp only [hr]
    | some route =>
      have hlen := hroute route hr
      simp only [hr]
      rw [if_neg (by omega)]
  · intro router coords mst bbox mode out g hf hs
    exact visualize_snap_error router coords mst bbox mode out g hf hs

/-- Witness for C4 amended at concrete failing queries. -/
theorem C4_amended_witness :
    (snapFailGraph.shortestPath 3 4 = .ok none → routeOrNone snapFailGraph 3 4 = none)
    ∧ routeOrNone snapFailGraph 3 4 = none
    ∧ drawEdge snapFailGraph [] [] (0, 1, 0)
        = .ok (.fallback (fallbackKm [] (0, 1, 0)))
    ∧ snapFailRouter.fetchGraph (0, 0, 0, 0) = .ok snapFailGraph
    ∧ snapFailGraph.nearestNodes [] = .error ()
    ∧ visualize_mst_map snapFailRouter [] ⟨[], []⟩ (0, 0, 0, 0) "auto" "m.html"
        = .error () := by
  refine ⟨fun _ => rfl, rfl, ?_, rfl, rfl, ?_⟩
  · exact C4_amended.2.1 snapFailGraph [] [] (0, 1, 0)
      (fun route hr => by
        cases hr)
  · exact C4_amended.2.2 snapFailRouter [] ⟨[], []⟩ (0, 0, 0, 0) "auto" "m.html"
      snapFailGraph rfl rfl

/-- A road network that snaps the two sample points to nodes 10 and 20
and routes between them through a three-node path of total length 2 m. -/
def refinedGraph : RoadGraph :=
  { nearestNodes := fun _ => .ok [10, 20]
    shortestPath := fun _ _ => .ok (some [10, 15, 20])
    routeLength := fun _ => .ok 2 }

/-- A router delivering `refinedGraph`. -/
def refinedRouter : Router := ⟨fun _ => .ok refinedGraph⟩

/-- Two point records at (lat 0, lon 0) and (lat 1, lon 0). -/
def twoRecords : List FacilityRecord :=
  [⟨Geometry.point 0 0, []⟩, ⟨Geometry.point 0 1, []⟩]

/-- The MST of the two sample points is the single pair edge carrying
the geodesic weight. -/
theorem twoRecords_mst_edges :
    (build_mst_graph (build_geodesic_graph (extract_coordinates twoRecords))).edges
      = [(0, 1, haversine 0 0 1 0)] := by
  have h1 : sortEdges (build_geodesic_graph (extract_coordinates twoRecords)).edges
      = [(0, 1, haversine 0 0 1 0)] := by
    have h0 : (build_geodesic_graph (extract_coordinates twoRecords)).edges
        = [(0, 1, haversine 0 0 1 0)] := rfl
    rw [sortEdges, h0, List.mergeSort_singleton]
  show ((sortEdges (build_geodesic_graph (extract_coordinates twoRecords)).edges).foldl
      kruskalStep ([], List.range
        (build_geodesic_graph (extract_coordinates twoRecords)).nodes.length)).1 = _
  rw [h1]
  rfl

/-- On the sample run the map rendering draws the refined routed
distance `2 / 1000` km for the single MST edge. -/
theorem twoRecords_vis :
    visualize_mst_map refinedRouter (extract_coordinates twoRecords)
      (build_mst_graph (build_geodesic_graph (extract_coordinates twoRecords)))
      (0, 0, 0, 0) "auto" "o.html"
      = .ok ([EdgeDraw.refined (2 / 1000)], "o.html") := by
  unfold visualize_mst_map
  rw [twoRecords_mst_edges]
  rfl

/-- C1 is false on the code: on a run where the routable network
resolves the MST edge to a valid three-node path of summed length 2 m
(so the map label is `refined`), the `NetworkResult` still carries the
original geodesic weight `haversine 0 0 1 0 ≠ 2` for that edge — the
refined distance is never written back into the returned edge sequence,
which also has no status field. -/
theorem C1_counterexample :
    generate_logistics_mst refinedRouter twoRecords (0, 0, 0, 0) "auto" "o.html"
      = Except.ok (MstResponse.result
        { nodes_count := 2
          edges_count := 1
          total_distance := haversine 0 0 1 0
          points := [⟨0, 0, []⟩, ⟨1, 0, []⟩]
          edges := [{ from_index := 0, to_index := 1, distance := haversine 0 0 1 0 }]
          map_path := "o.html"
          mode := "auto"
          bbox := (0, 0, 0, 0)
          status := "ok" })
    ∧ haversine 0 0 1 0 ≠ 2 := by
  constructor
  · rw [generate_eq refinedRouter twoRecords (0, 0, 0, 0) "auto" "o.html"
      [("building", TagValue.strs ["warehouse", "depot", "industrial"])] rfl rfl
      ([EdgeDraw.refined (2 / 1000)], "o.html") twoRecords_vis,
      twoRecords_mst_edges]
    norm_num [extract_coordinates, twoRecords, cleanTags, resolveLat, resolveLon]
  · intro h
    rw [haversine_one_degree] at h
    have hpi := Real.pi_gt_d6
    nlinarith

/-- C1 amended: the refined shortest-path distance appears only on the
rendered map — when routing succeeds with a more-than-one-node path of
summed length `L`, the edge is drawn `refined` with `L / 1000` km, and
any edge without a usable route is drawn `fallback` with its geodesic
distance; the edge sequence of the returned `NetworkResult` always
carries the unchanged MST (geodesic) weights, with no per-edge status
field. -/
theorem C1_amended :
    (∀ (g : RoadGraph) (coords : List LocatedPoint) (snapped : List ℕ) (e : Edge)
        (route : List ℕ) (L : ℝ),
      routeOrNone g (snapped.getD e.1 0) (snapped.getD e.2.1 0) = some route →
      1 < route.length →
      g.routeLength route = .ok L →
      drawEdge g coords snapped e = .ok (.refined (L / 1000)))
    ∧ (∀ (g : RoadGraph) (coords : List LocatedPoint) (snapped : List ℕ) (e : Edge),
        (∀ route, routeOrNone g (snapped.getD e.1 0) (snapped.getD e.2.1 0) = some route →
          route.length ≤ 1) →
        drawEdge g coords snapped e = .ok (EdgeDraw.fallback (fallbackKm coords e)))
    ∧ (∀ (router : Router) (gdf : List FacilityRecord) (bbox : Bbox) (mode out : String)
        (r : NetworkResult),
        generate_logistics_mst router gdf bbox mode out = Except.ok (MstResponse.result r) →
        r.edges = (build_mst_graph (build_geodesic_graph
            (extract_coordinates gdf))).edges.map (fun e =>
          { from_index := e.1, to_index := e.2.1, distance := e.2.2 })) := by
  refine ⟨?_, ?_, ?_⟩
  · intro g coords snapped e route L hr hlen hL
    unfold drawEdge
    simp only [hr]
    rw [if_pos hlen]
    simp only [hL]
  · intro g coords snapped e hroute
    unfold drawEdge
    cases hr : routeOrNone g (snapped.getD e.1 0) (snapped.getD e.2.1 0) with
    | none => simp only [hr]
    | some route =>
      have hlen := hroute route hr
      simp only [hr]
      rw [if_neg (by omega)]
  · intro router gdf bbox mode out r h
    unfold generate_logistics_mst at h
    cases hm : get_default_tags mode with
    | none =>
      simp only [hm] at h
      exact absurd h (by simp)
    | some tags =>
      simp only [hm] at h
      by_cases hne : gdf.isEmpty = true
      · simp only [hne, if_true] at h
        simp at h
      · have hne' : gdf.isEmpty = false := by simpa using hne
        simp only [hne', Bool.false_eq_true, if_false] at h
        cases hv : visualize_mst_map router (extract_coordinates gdf)
            (build_mst_graph (build_geodesic_graph (extract_coordinates gdf)))
            bbox mode out with
        | error err =>
          simp only [hv] at h
          exact absurd h (by simp)
        | ok res =>
          simp only [hv, Except.ok.injEq, MstResponse.result.injEq] at h
          rw [← h]

/-- Witness for C1 amended: the concrete sample run draws the refined
distance and keeps the geodesic weight in the result. -/
theorem C1_amended_witness :
    routeOrNone refinedGraph 10 20 = some [10, 15, 20]
    ∧ refinedGraph.routeLength [10, 15, 20] = Except.ok 2
    ∧ drawEdge refinedGraph (extract_coordinates twoRecords) [10, 20]
        (0, 1, haversine 0 0 1 0) = .ok (.refined (2 / 1000)) := by
  refine ⟨rfl, rfl, ?_⟩
  exact C1_amended.1 refinedGraph (extract_coordinates twoRecords) [10, 20]
    (0, 1, haversine 0 0 1 0) [10, 15, 20] 2 rfl (by decide) rfl

/-- C10: every successful (non-empty-input) result of
`generate_logistics_mst` is internally consistent: `nodes_count` is the
length of `points`, `edges_count` the length of `edges`,
`total_distance` the sum of the listed `distance` fields, and every
edge joins two distinct indices inside `[0, nodes_count)`. -/
theorem C10_result_consistency (router : Router) (gdf : List FacilityRecord)
    (bbox : Bbox) (mode out : String) (r : NetworkResult)
    (h : generate_logistics_mst router gdf bbox mode out
        = Except.ok (MstResponse.result r)) :
    r.nodes_count = r.points.length
    ∧ r.edges_count = r.edges.length
    ∧ r.total_distance = (r.edges.map (fun e => e.distance)).sum
    ∧ ∀ e ∈ r.edges, e.from_index ≠ e.to_index
        ∧ e.from_index < r.nodes_count ∧ e.to_index < r.nodes_count := by
  unfold generate_logistics_mst at h
  cases hm : get_default_tags mode with
  | none =>
    simp only [hm] at h
    exact absurd h (by simp)
  | some tags =>
    simp only [hm] at h
    by_cases hne : gdf.isEmpty = true
    · simp only [hne, if_true] at h
      simp at h
    · have hne' : gdf.isEmpty = false := by simpa using hne
      simp only [hne', Bool.false_eq_true, if_false] at h
      cases hv : visualize_mst_map router (extract_coordinates gdf)
          (build_mst_graph (build_geodesic_graph (extract_coordinates gdf)))
          bbox mode out with
      | error err =>
        simp only [hv] at h
        exact absurd h (by simp)
      | ok res =>
        simp only [hv, Except.ok.injEq, MstResponse.result.injEq] at h
        subst h
        have hnnil : gdf ≠ [] := by
          intro hq
          rw [hq] at hne'
          simp at hne'
        have hn : 1 ≤ (extract_coordinates gdf).length := by
          unfold extract_coordinates
          rw [List.length_map]
          exact Nat.one_le_iff_ne_zero.mpr (fun hz => hnnil (List.eq_nil_of_length_eq_zero hz))
        obtain ⟨hsub, hbounds, _, _, _⟩ := mst_structure (extract_coordinates gdf) hn
        refine ⟨rfl, rfl, by simp only [List.map_map]; rfl, ?_⟩
        intro e he
        simp only [List.mem_map] at he
        obtain ⟨a, ha, rfl⟩ := he
        obtain ⟨h1, h2⟩ := hbounds a ha
        have hb := (mem_build_edges (extract_coordinates gdf) a.1 a.2.1 a.2.2).mp (hsub a ha)
        refine ⟨Nat.ne_of_lt hb.1, ?_, ?_⟩
        · simpa using h1
        · simpa using h2

/-- The result assembled on the concrete sample run. -/
noncomputable def sampleResult : NetworkResult :=
  { nodes_count := ((extract_coordinates twoRecords).map (fun row =>
      ({ lat := row.lat, lon := row.lon, tags := cleanTags row.tags } : ResultPoint))).length
    edges_count := ((build_mst_graph (build_geodesic_graph
        (extract_coordinates twoRecords))).edges.map (fun e =>
      ({ from_index := e.1, to_index := e.2.1, distance := e.2.2 } : ResultEdge))).length
    total_distance := ((build_mst_graph (build_geodesic_graph
        (extract_coordinates twoRecords))).edges.map (fun e => e.2.2)).sum
    points := (extract_coordinates twoRecords).map (fun row =>
      { lat := row.lat, lon := row.lon, tags := cleanTags row.tags })
    edges := (build_mst_graph (build_geodesic_graph
        (extract_coordinates twoRecords))).edges.map (fun e =>
      { from_index := e.1, to_index := e.2.1, distance := e.2.2 })
    map_path := "o.html"
    mode := "auto"
    bbox := (0, 0, 0, 0)
    status := "ok" }

/-- Witness for C10 on the concrete sample run. -/
theorem C10_result_consistency_witness :
    generate_logistics_mst refinedRouter twoRecords (0, 0, 0, 0) "auto" "o.html"
      = Except.ok (MstResponse.result sampleResult)
    ∧ sampleResult.nodes_count = sampleResult.points.length
    ∧ sampleResult.edges_count = sampleResult.edges.length
    ∧ sampleResult.total_distance
        = (sampleResult.edges.map (fun e => e.distance)).sum := by
  have hgen : generate_logistics_mst refinedRouter twoRecords (0, 0, 0, 0) "auto" "o.html"
      = Except.ok (MstResponse.result sampleResult) :=
    generate_eq refinedRouter twoRecords (0, 0, 0, 0) "auto" "o.html"
      [("building", TagValue.strs ["warehouse", "depot", "industrial"])] rfl rfl
      ([EdgeDraw.refined (2 / 1000)], "o.html") twoRecords_vis
  obtain ⟨c1, c2, c3, _⟩ := C10_result_consistency refinedRouter twoRecords
    (0, 0, 0, 0) "auto" "o.html" sampleResult hgen
  exact ⟨hgen, c1, c2, c3⟩

end Logistics
